import Mathlib

/-!
Verification of the core of `montecarlo-ip-searcher` against its
natural-language specification.

The Go source is shallowly embedded: `float64` fields are modelled as `ℚ`
(the claims under scrutiny concern the exact algebraic update formulas, not
floating-point rounding), machine integers as `ℕ`/`ℤ`, and the concurrent
event loop as explicit state passing over the sequence of delivered probe
results.  Each definition mirrors one function of the repository, named
after it.
-/

set_option maxHeartbeats 1000000

namespace MCIS

/-! ### Arm node (`internal/bandit`, arm node file)

`ArmNode` carries a Beta posterior `(alpha, beta)` for success rate, a
Normal-Gamma posterior `(mu, lambda, alphaNG, betaNG)` for latency, raw
counters and the split flag.  `NewArmNode` installs the priors
`Alpha = Beta = 1`, `Mu = 0`, `Lambda = 0.001`, `AlphaNG = BetaNG = 1`.
-/

structure ArmNode where
  alpha : ℚ
  beta : ℚ
  mu : ℚ
  lambda : ℚ
  alphaNG : ℚ
  betaNG : ℚ
  samples : ℕ
  successes : ℕ
  failures : ℕ
  sumLatency : ℚ
  sumSqDiff : ℚ
  isSplit : Bool
  deriving Repr, DecidableEq

/-- `NewArmNode`: uninformative Beta prior `(1,1)`, weak Normal-Gamma prior
`(Mu=0, Lambda=0.001, AlphaNG=1, BetaNG=1)`, zero counters. -/
def newArmNode : ArmNode :=
  { alpha := 1
    beta := 1
    mu := 0
    lambda := 1/1000
    alphaNG := 1
    betaNG := 1
    samples := 0
    successes := 0
    failures := 0
    sumLatency := 0
    sumSqDiff := 0
    isSplit := false }

/-- `ArmNode.Update`: on success bump `Successes`/`Alpha`, perform the
Normal-Gamma update `Lambda' = Lambda + 1`, `Mu' = (Lambda*Mu + x)/Lambda'`,
and (guarded by `Successes > 1`, counted after the increment) the Welford
`SumSqDiff` and the `AlphaNG`/`BetaNG` updates; on failure bump
`Failures`/`Beta` and apply the weight-`0.5` pessimistic latency update with
`penaltyLatency = timeoutMS * 2`. -/
def armUpdate (a : ArmNode) (success : Bool) (latencyMS timeoutMS : ℚ) : ArmNode :=
  let a := { a with samples := a.samples + 1 }
  if success then
    let successes := a.successes + 1
    let alpha := a.alpha + 1
    let oldMu := a.mu
    let oldLambda := a.lambda
    let lambda := oldLambda + 1
    let mu := (oldLambda * oldMu + latencyMS) / lambda
    let sumLatency := a.sumLatency + latencyMS
    let sumSqDiff :=
      if successes > 1 then
        a.sumSqDiff + (latencyMS - oldMu) * (latencyMS - mu) * oldLambda / lambda
      else a.sumSqDiff
    let alphaNG := if successes > 1 then a.alphaNG + 1/2 else a.alphaNG
    let betaNG :=
      if successes > 1 then
        a.betaNG + 1/2 * (latencyMS - oldMu) * (latencyMS - mu) * oldLambda / lambda
      else a.betaNG
    { a with successes := successes, alpha := alpha, lambda := lambda, mu := mu,
             sumLatency := sumLatency, sumSqDiff := sumSqDiff,
             alphaNG := alphaNG, betaNG := betaNG }
  else
    let failures := a.failures + 1
    let beta := a.beta + 1
    let penaltyLatency := timeoutMS * 2
    let oldMu := a.mu
    let oldLambda := a.lambda
    let weight : ℚ := 1/2
    let lambda := oldLambda + weight
    let mu := (oldLambda * oldMu + weight * penaltyLatency) / lambda
    { a with failures := failures, beta := beta, lambda := lambda, mu := mu }

/-- One recorded probe observation: outcome flag, latency, timeout. -/
structure Obs where
  success : Bool
  latencyMS : ℚ
  timeoutMS : ℚ

/-- Fold a sequence of `Update` calls over an arm. -/
def armUpdateAll (a : ArmNode) (obs : List Obs) : ArmNode :=
  obs.foldl (fun a o => armUpdate a o.success o.latencyMS o.timeoutMS) a

/-! Single-step facts about `armUpdate`, shared by the claims below. -/

theorem armUpdate_samples (a : ArmNode) (s : Bool) (x t : ℚ) :
    (armUpdate a s x t).samples = a.samples + 1 := by
  unfold armUpdate; cases s <;> simp

theorem armUpdate_successes_true (a : ArmNode) (x t : ℚ) :
    (armUpdate a true x t).successes = a.successes + 1 ∧
      (armUpdate a true x t).failures = a.failures := by
  unfold armUpdate; simp

theorem armUpdate_failures_false (a : ArmNode) (x t : ℚ) :
    (armUpdate a false x t).failures = a.failures + 1 ∧
      (armUpdate a false x t).successes = a.successes := by
  unfold armUpdate; simp

theorem armUpdate_alpha_mono (a : ArmNode) (s : Bool) (x t : ℚ) :
    a.alpha ≤ (armUpdate a s x t).alpha := by
  unfold armUpdate; cases s <;> simp

theorem armUpdate_beta_mono (a : ArmNode) (s : Bool) (x t : ℚ) :
    a.beta ≤ (armUpdate a s x t).beta := by
  unfold armUpdate; cases s <;> simp

theorem armUpdate_lambda_strict (a : ArmNode) (s : Bool) (x t : ℚ) :
    a.lambda < (armUpdate a s x t).lambda := by
  unfold armUpdate; cases s <;> simp

/-- The conjunction of arm invariants tracked through update sequences. -/
def ArmInv (a : ArmNode) : Prop :=
  a.samples = a.successes + a.failures ∧ 1 ≤ a.alpha ∧ 1 ≤ a.beta ∧ 0 < a.lambda

theorem armUpdate_inv {a : ArmNode} (h : ArmInv a) (s : Bool) (x t : ℚ) :
    ArmInv (armUpdate a s x t) := by
  obtain ⟨hc, ha, hb, hl⟩ := h
  refine ⟨?_, ?_, ?_, ?_⟩
  · unfold armUpdate; cases s <;> simp <;> omega
  · exact le_trans ha (armUpdate_alpha_mono a s x t)
  · exact le_trans hb (armUpdate_beta_mono a s x t)
  · exact lt_trans hl (armUpdate_lambda_strict a s x t)

theorem armUpdateAll_inv {a : ArmNode} (h : ArmInv a) (obs : List Obs) :
    ArmInv (armUpdateAll a obs) := by
  induction obs generalizing a with
  | nil => exact h
  | cons o rest ih => exact ih (armUpdate_inv h o.success o.latencyMS o.timeoutMS)

theorem newArmNode_inv : ArmInv newArmNode := by
  refine ⟨rfl, le_refl 1, le_refl 1, by norm_num [newArmNode]⟩

/-- **C2** — For every arm node, after any sequence of `Update` calls starting
from a freshly created node, `samples = successes + failures`, `α ≥ 1`,
`β ≥ 1` and `λ > 0` hold; moreover each `Update` increments `samples` by
exactly 1 and exactly one of `successes`/`failures` by 1, `α` and `β` never
decrease (so never drop below the prior 1), and `λ` starts at `0.001` and
strictly increases at each update. -/
theorem arm_invariants_after_updates (obs : List Obs) :
    (let a := armUpdateAll newArmNode obs
     a.samples = a.successes + a.failures ∧ 1 ≤ a.alpha ∧ 1 ≤ a.beta ∧ 0 < a.lambda) ∧
    newArmNode.lambda = 1/1000 ∧
    (∀ (a : ArmNode) (s : Bool) (x t : ℚ),
      (armUpdate a s x t).samples = a.samples + 1 ∧
      (s = true → (armUpdate a s x t).successes = a.successes + 1 ∧
        (armUpdate a s x t).failures = a.failures) ∧
      (s = false → (armUpdate a s x t).failures = a.failures + 1 ∧
        (armUpdate a s x t).successes = a.successes) ∧
      a.alpha ≤ (armUpdate a s x t).alpha ∧
      a.beta ≤ (armUpdate a s x t).beta ∧
      a.lambda < (armUpdate a s x t).lambda) := by
  refine ⟨armUpdateAll_inv newArmNode_inv obs, rfl, ?_⟩
  intro a s x t
  refine ⟨armUpdate_samples a s x t, ?_, ?_,
    armUpdate_alpha_mono a s x t, armUpdate_beta_mono a s x t,
    armUpdate_lambda_strict a s x t⟩
  · rintro rfl; exact armUpdate_successes_true a x t
  · rintro rfl; exact armUpdate_failures_false a x t

/-- **C3** — `ArmNode.Update` with `success = true` and observation `x` sets
`λ' = λ + 1`, `μ' = (λ·μ + x)/λ'`, bumps `α` by 1, and applies the
`sum_sq_diff` / `α_ng` / `β_ng` updates (each built from
`(x − μ_old)·(x − μ_new)·λ_old/λ_new`) exactly when this is the second or
later success, leaving them unchanged on the very first success; with
`success = false` it bumps `β` by 1 and applies the pessimistic mean update
with `penalty = 2·timeout_ms` and weight `0.5`, leaving `sum_sq_diff`,
`α_ng` and `β_ng` unchanged. -/
theorem armUpdate_formulas (a : ArmNode) (x t : ℚ) :
    (let u := armUpdate a true x t
     u.lambda = a.lambda + 1 ∧
     u.mu = (a.lambda * a.mu + x) / (a.lambda + 1) ∧
     u.alpha = a.alpha + 1 ∧
     u.beta = a.beta ∧
     (1 ≤ a.successes →
       u.sumSqDiff = a.sumSqDiff + (x - a.mu) * (x - u.mu) * a.lambda / u.lambda ∧
       u.alphaNG = a.alphaNG + 1/2 ∧
       u.betaNG = a.betaNG + 1/2 * (x - a.mu) * (x - u.mu) * a.lambda / u.lambda) ∧
     (a.successes = 0 →
       u.sumSqDiff = a.sumSqDiff ∧ u.alphaNG = a.alphaNG ∧ u.betaNG = a.betaNG)) ∧
    (let u := armUpdate a false x t
     u.beta = a.beta + 1 ∧
     u.alpha = a.alpha ∧
     u.lambda = a.lambda + 1/2 ∧
     u.mu = (a.lambda * a.mu + 1/2 * (2 * t)) / (a.lambda + 1/2) ∧
     u.sumSqDiff = a.sumSqDiff ∧ u.alphaNG = a.alphaNG ∧ u.betaNG = a.betaNG) := by
  constructor
  · refine ⟨by simp [armUpdate], by simp [armUpdate], by simp [armUpdate],
      by simp [armUpdate], ?_, ?_⟩
    · intro h
      have hgt : a.successes + 1 > 1 := by omega
      refine ⟨?_, ?_, ?_⟩ <;> simp [armUpdate, hgt]
    · intro h
      simp [armUpdate, h]
  · refine ⟨by simp [armUpdate], by simp [armUpdate], by simp [armUpdate],
      ?_, by simp [armUpdate], by simp [armUpdate], by simp [armUpdate]⟩
    simp [armUpdate]
    ring_nf

/-! ### Prefixes and prefix distance (head manager file, `prefixDistance` / `compareBytes`)

A prefix is modelled by its address family, its network-address bytes in
canonical (most-significant-first) order — 4 bytes for IPv4 (`As4`),
16 bytes for IPv6 (`As16`) — and its prefix length in bits.
-/

structure PrefixM where
  isV4 : Bool
  bytes : List ℕ
  bits : ℕ
  deriving Repr, DecidableEq

/-- The inner loop of `compareBytes`: count leading zero bits of the XOR
byte, scanning from bit 7 down to bit 0. -/
def clz8 (z : ℕ) : ℕ :=
  if z.testBit 7 then 0
  else if z.testBit 6 then 1
  else if z.testBit 5 then 2
  else if z.testBit 4 then 3
  else if z.testBit 3 then 4
  else if z.testBit 2 then 5
  else if z.testBit 1 then 6
  else if z.testBit 0 then 7
  else 8

/-- The matching-bit count accumulated by the loop of `compareBytes`:
XOR each byte pair; a zero byte contributes 8 matching bits (clamped to
`maxBits`), a nonzero byte contributes its leading zero bits (stopping at
`maxBits`) and ends the scan. -/
def matchingBits : List ℕ → List ℕ → ℕ → ℕ
  | x :: xs, y :: ys, cap =>
    if cap = 0 then 0
    else
      let z := x ^^^ y
      if z = 0 then
        if cap ≤ 8 then cap else 8 + matchingBits xs ys (cap - 8)
      else min (clz8 z) cap
  | _, _, _ => 0

/-- `compareBytes` returns `maxBits - matching`. -/
def compareBytes (a b : List ℕ) (maxBits : ℕ) : ℕ :=
  maxBits - matchingBits a b maxBits

/-- `prefixDistance`: 128 across address families, otherwise
`compareBytes` of the address bytes bounded by the smaller prefix length. -/
def prefixDistance (a b : PrefixM) : ℕ :=
  if a.isV4 ≠ b.isV4 then 128
  else compareBytes a.bytes b.bytes (min a.bits b.bits)

/-! A clean bit-level account of the common prefix, used to state C10. -/

/-- Bit `i` (0 = most significant) of a byte. -/
def byteBit (b i : ℕ) : Bool := b.testBit (7 - i)

/-- Bit `k` (0 = most significant) of a most-significant-first byte string. -/
def bitAt (bytes : List ℕ) (k : ℕ) : Bool := byteBit (bytes.getD (k / 8) 0) (k % 8)

theorem bitAt_cons_ge8 (x : ℕ) (xs : List ℕ) (j : ℕ) :
    bitAt (x :: xs) (8 + j) = bitAt xs j := by
  unfold bitAt
  have h1 : (8 + j) / 8 = j / 8 + 1 := by omega
  have h2 : (8 + j) % 8 = j % 8 := by omega
  rw [h1, h2, List.getD_cons_succ]

theorem bitAt_cons_lt8 (x : ℕ) (xs : List ℕ) (j : ℕ) (h : j < 8) :
    bitAt (x :: xs) j = byteBit x j := by
  unfold bitAt
  rw [Nat.div_eq_of_lt h, Nat.mod_eq_of_lt h, List.getD_cons_zero]

/-- Count of leading common bits of two byte strings starting at global bit
`k`, examining at most `n` bits. -/
def cpbAux (a b : List ℕ) (k : ℕ) : ℕ → ℕ
  | 0 => 0
  | n + 1 => if bitAt a k = bitAt b k then 1 + cpbAux a b (k + 1) n else 0

/-- Number of leading bits on which the two byte strings agree, capped. -/
def commonPrefixBits (a b : List ℕ) (cap : ℕ) : ℕ := cpbAux a b 0 cap

theorem cpbAux_le (a b : List ℕ) (k n : ℕ) : cpbAux a b k n ≤ n := by
  induction n generalizing k with
  | zero => simp [cpbAux]
  | succ n ih =>
    simp only [cpbAux]
    split
    · have := ih (k + 1); omega
    · exact Nat.zero_le _

theorem cpbAux_all_eq (a b : List ℕ) :
    ∀ (n k : ℕ), (∀ j, j < n → bitAt a (k + j) = bitAt b (k + j)) →
      cpbAux a b k n = n := by
  intro n
  induction n with
  | zero => intro k _; rfl
  | succ n ih =>
    intro k h
    have h0 : bitAt a k = bitAt b k := by simpa using h 0 (by omega)
    simp only [cpbAux, if_pos h0]
    rw [ih (k + 1) (fun j hj => by
      have := h (j + 1) (by omega)
      rwa [show k + (j + 1) = k + 1 + j by omega] at this)]
    omega

theorem cpbAux_shift8 (x y : ℕ) (xs ys : List ℕ) :
    ∀ (n j : ℕ), cpbAux (x :: xs) (y :: ys) (8 + j) n = cpbAux xs ys j n := by
  intro n
  induction n with
  | zero => intro j; rfl
  | succ n ih =>
    intro j
    simp only [cpbAux, bitAt_cons_ge8]
    rw [show 8 + j + 1 = 8 + (j + 1) by omega, ih (j + 1)]

theorem cpbAux_front (x y : ℕ) (xs ys : List ℕ)
    (hxy : ∀ i, i < 8 → byteBit x i = byteBit y i) :
    ∀ (d k : ℕ), k + d = 8 → ∀ (n : ℕ),
      cpbAux (x :: xs) (y :: ys) k (d + n) = d + cpbAux xs ys 0 n := by
  intro d
  induction d with
  | zero =>
    intro k hk n
    have hk8 : k = 8 := by omega
    subst hk8
    rw [Nat.zero_add]
    simpa using cpbAux_shift8 x y xs ys n 0
  | succ d ih =>
    intro k hk n
    have hk8 : k < 8 := by omega
    have heq : bitAt (x :: xs) k = bitAt (y :: ys) k := by
      rw [bitAt_cons_lt8 _ _ _ hk8, bitAt_cons_lt8 _ _ _ hk8]
      exact hxy k hk8
    rw [show d + 1 + n = (d + n) + 1 by omega]
    simp only [cpbAux, if_pos heq]
    rw [ih (k + 1) (by omega) n]
    omega

/-- When the two leading bytes agree on all 8 bits, the common-prefix count
consumes the byte and continues. -/
theorem cpbAux_byte_eq (x y : ℕ) (xs ys : List ℕ)
    (hxy : ∀ i, i < 8 → byteBit x i = byteBit y i) (cap : ℕ) :
    cpbAux (x :: xs) (y :: ys) 0 cap = min 8 cap + cpbAux xs ys 0 (cap - 8) := by
  rcases le_or_lt cap 8 with hc | hc
  · rw [Nat.min_eq_right hc, Nat.sub_eq_zero_of_le hc]
    show cpbAux (x :: xs) (y :: ys) 0 cap = cap + cpbAux xs ys 0 0
    rw [show cpbAux xs ys 0 0 = 0 from rfl, Nat.add_zero]
    apply cpbAux_all_eq
    intro j hj
    have hj8 : j < 8 := by omega
    rw [Nat.zero_add, bitAt_cons_lt8 _ _ _ hj8, bitAt_cons_lt8 _ _ _ hj8]
    exact hxy j hj8
  · rw [Nat.min_eq_left (by omega)]
    have h := cpbAux_front x y xs ys hxy 8 0 rfl (cap - 8)
    rw [show 8 + (cap - 8) = cap by omega] at h
    rw [h]

theorem cpbAux_spec (a b : List ℕ) (k n : ℕ) :
    (∀ j, j < cpbAux a b k n → bitAt a (k + j) = bitAt b (k + j)) ∧
    (cpbAux a b k n < n → bitAt a (k + cpbAux a b k n) ≠ bitAt b (k + cpbAux a b k n)) := by
  induction n generalizing k with
  | zero => simp [cpbAux]
  | succ n ih =>
    simp only [cpbAux]
    split
    · next heq =>
      obtain ⟨ih1, ih2⟩ := ih (k + 1)
      constructor
      · intro j hj
        cases j with
        | zero => simpa using heq
        | succ j =>
          have := ih1 j (by omega)
          have harr : k + (j + 1) = k + 1 + j := by omega
          rw [harr]; exact this
      · intro hlt
        have := ih2 (by omega)
        have harr : k + (1 + cpbAux a b (k + 1) n) = k + 1 + cpbAux a b (k + 1) n := by
          omega
        rw [harr]; exact this
    · next hne =>
      exact ⟨by intro j hj; omega, by intro _; simpa using hne⟩

theorem clz8_le (z : ℕ) : clz8 z ≤ 8 := by
  unfold clz8; split_ifs <;> omega

theorem clz8_zero_bits (z : ℕ) : ∀ i, i < clz8 z → z.testBit (7 - i) = false := by
  unfold clz8
  split_ifs with h7 h6 h5 h4 h3 h2 h1 h0 <;> intro i hi <;> interval_cases i <;>
    simp_all

theorem clz8_one_bit (z : ℕ) (h : clz8 z < 8) : z.testBit (7 - clz8 z) = true := by
  unfold clz8 at *
  split_ifs with h7 h6 h5 h4 h3 h2 h1 h0 <;> simp_all

theorem clz8_lt_of_ne (z : ℕ) (hz : z < 256) (hne : z ≠ 0) : clz8 z < 8 := by
  by_contra h
  have h8 : clz8 z = 8 := by have := clz8_le z; omega
  apply hne
  apply Nat.eq_of_testBit_eq
  intro i
  simp only [Nat.zero_testBit]
  by_cases hi : i < 8
  · have := clz8_zero_bits z (7 - i) (by omega)
    have : z.testBit (7 - (7 - i)) = false := this
    rwa [show 7 - (7 - i) = i by omega] at this
  · exact Nat.testBit_eq_false_of_lt (lt_of_lt_of_le hz (by
      calc (256 : ℕ) = 2 ^ 8 := by norm_num
      _ ≤ 2 ^ i := Nat.pow_le_pow_right (by norm_num) (by omega)))

theorem byteBit_eq_iff (x y i : ℕ) :
    byteBit x i = byteBit y i ↔ (x ^^^ y).testBit (7 - i) = false := by
  unfold byteBit
  rw [Nat.testBit_xor]
  cases hx : x.testBit (7 - i) <;> cases hy : y.testBit (7 - i) <;> simp

/-- Characterization of the `compareBytes` loop: under byte bounds and a cap
no larger than the bit width, the matching count is exactly the capped
count of leading common bits. -/
theorem matchingBits_eq_commonPrefixBits :
    ∀ (a b : List ℕ) (cap : ℕ),
      (∀ x ∈ a, x < 256) → (∀ x ∈ b, x < 256) →
      b.length = a.length → cap ≤ 8 * a.length →
      matchingBits a b cap = commonPrefixBits a b cap := by
  intro a
  induction a with
  | nil =>
    intro b cap _ _ hlen hcap
    have : cap = 0 := by simpa using hcap
    subst this
    cases b <;> simp [matchingBits, commonPrefixBits, cpbAux]
  | cons x xs ih =>
    intro b cap hxa hxb hlen hcap
    cases b with
    | nil => simp at hlen
    | cons y ys =>
      by_cases hcap0 : cap = 0
      · subst hcap0
        simp [matchingBits, commonPrefixBits, cpbAux]
      have hx : x < 256 := hxa x (List.mem_cons_self x xs)
      have hy : y < 256 := hxb y (List.mem_cons_self y ys)
      by_cases hz : x ^^^ y = 0
      · -- equal bytes: 8 common bits, continue
        have hxy : x = y := Nat.xor_eq_zero.mp hz
        subst hxy
        have hxyb : ∀ i, i < 8 → byteBit x i = byteBit x i := fun _ _ => rfl
        have hcpb : commonPrefixBits (x :: xs) (x :: ys) cap
            = min 8 cap + commonPrefixBits xs ys (cap - 8) := by
          unfold commonPrefixBits
          exact cpbAux_byte_eq x x xs ys hxyb cap
        rw [hcpb, ← ih ys (cap - 8) (fun u hu => hxa u (List.mem_cons_of_mem _ hu))
            (fun u hu => hxb u (List.mem_cons_of_mem _ hu))
            (by simpa using hlen) (by simp at hcap ⊢; omega)]
        by_cases hc8 : cap ≤ 8
        · rw [show matchingBits (x :: xs) (x :: ys) cap = cap by
            rw [matchingBits]; simp [hcap0, hz, hc8]]
          rw [Nat.min_eq_right hc8, Nat.sub_eq_zero_of_le hc8]
          rw [show matchingBits xs ys 0 = 0 by cases xs <;> cases ys <;>
            simp [matchingBits]]
          omega
        · rw [show matchingBits (x :: xs) (x :: ys) cap
              = 8 + matchingBits xs ys (cap - 8) by
            rw [matchingBits]; simp [hcap0, hz, hc8]]
          rw [Nat.min_eq_left (by omega)]
      · -- differing bytes: the scan stops inside this byte
        rw [show matchingBits (x :: xs) (y :: ys) cap = min (clz8 (x ^^^ y)) cap by
          rw [matchingBits]; simp [hcap0, hz]]
        have hzlt : x ^^^ y < 256 := Nat.xor_lt_two_pow (n := 8) (by simpa using hx)
          (by simpa using hy)
        have hclz : clz8 (x ^^^ y) < 8 := clz8_lt_of_ne _ hzlt hz
        -- common bits in the first byte agree below clz8, differ at clz8
        have hagree : ∀ i, i < clz8 (x ^^^ y) → byteBit x i = byteBit y i := by
          intro i hi
          rw [byteBit_eq_iff]
          exact clz8_zero_bits _ i hi
        have hdiff : byteBit x (clz8 (x ^^^ y)) ≠ byteBit y (clz8 (x ^^^ y)) := by
          rw [Ne, byteBit_eq_iff]
          simp [clz8_one_bit _ hclz]
        symm
        unfold commonPrefixBits
        set m := cpbAux (x :: xs) (y :: ys) 0 cap with hm
        obtain ⟨hspec1, hspec2⟩ := cpbAux_spec (x :: xs) (y :: ys) 0 cap
        have hle := cpbAux_le (x :: xs) (y :: ys) 0 cap
        rcases Nat.lt_trichotomy m (min (clz8 (x ^^^ y)) cap) with hlt | heq | hgt
        · exfalso
          have hmlt : m < cap := by omega
          have hm8 : m < 8 := by omega
          apply hspec2 hmlt
          rw [Nat.zero_add, bitAt_cons_lt8 _ _ _ hm8, bitAt_cons_lt8 _ _ _ hm8]
          exact hagree m (by omega)
        · exact heq
        · exfalso
          rcases Nat.lt_or_ge (clz8 (x ^^^ y)) cap with hc | hc
          · have : min (clz8 (x ^^^ y)) cap = clz8 (x ^^^ y) := by omega
            rw [this] at hgt
            have := hspec1 (clz8 (x ^^^ y)) hgt
            rw [Nat.zero_add, bitAt_cons_lt8 _ _ _ hclz, bitAt_cons_lt8 _ _ _ hclz]
              at this
            exact hdiff this
          · have : min (clz8 (x ^^^ y)) cap = cap := by omega
            omega

/-- **C10** — For two prefixes of the same address family the code's
`prefixDistance` equals `maxBits − common_prefix_bits`, where `maxBits` is
the bound the code hands to `compareBytes` (the smaller of the two prefix
lengths) and `common_prefix_bits` is the number of leading address bits the
two prefixes share, capped at that bound; across address families the
distance is 128. -/
theorem prefixDistance_spec (a b : PrefixM) :
    (a.isV4 = b.isV4 →
      (∀ x ∈ a.bytes, x < 256) → (∀ x ∈ b.bytes, x < 256) →
      b.bytes.length = a.bytes.length →
      min a.bits b.bits ≤ 8 * a.bytes.length →
      prefixDistance a b =
        min a.bits b.bits - commonPrefixBits a.bytes b.bytes (min a.bits b.bits)) ∧
    (a.isV4 ≠ b.isV4 → prefixDistance a b = 128) := by
  constructor
  · intro hfam ha hb hlen hcap
    unfold prefixDistance compareBytes
    rw [if_neg (by simp [hfam])]
    rw [matchingBits_eq_commonPrefixBits a.bytes b.bytes _ ha hb hlen hcap]
  · intro hfam
    unfold prefixDistance
    rw [if_pos hfam]

/-- Witness for C10 at concrete inputs: `10.0.0.0/16` vs `10.1.0.0/16`
(distance `16 − 15 = 1`) and an IPv4/IPv6 pair (distance 128). -/
theorem prefixDistance_spec_witness :
    (let a : PrefixM := ⟨true, [10, 0, 0, 0], 16⟩
     let b : PrefixM := ⟨true, [10, 1, 0, 0], 16⟩
     prefixDistance a b =
       min a.bits b.bits - commonPrefixBits a.bytes b.bytes (min a.bits b.bits) ∧
     prefixDistance a b = 1) ∧
    (let a : PrefixM := ⟨true, [10, 0, 0, 0], 16⟩
     let c : PrefixM := ⟨false, List.replicate 16 0, 32⟩
     prefixDistance a c = 128) := by
  refine ⟨⟨?_, by decide⟩, ?_⟩
  · exact (prefixDistance_spec ⟨true, [10, 0, 0, 0], 16⟩
      ⟨true, [10, 1, 0, 0], 16⟩).1 rfl (by decide) (by decide) (by decide) (by decide)
  · exact (prefixDistance_spec ⟨true, [10, 0, 0, 0], 16⟩
      ⟨false, List.replicate 16 0, 32⟩).2 (by decide)

/-! ### Head-manager candidate scoring (`SelectNextPrefix` / `SelectBeam`)

Both functions score every leaf candidate with the same loop body: a
Thompson-sampling score `tsScore`, a diversity penalty, and a depth bonus
clamped below at 0 (there is no upper clamp in the code).  The sampler draw
and `computeDiversityPenalty` are abstracted as functions of the candidate;
the claim is about the combination formula.
-/

/-- The depth-bonus computation from the scoring loop: `(bits−16)/8·0.2`
for IPv4, `(bits−32)/24·0.2` for IPv6, clamped below at 0. -/
def depthBonus (isV4 : Bool) (bits : ℕ) : ℚ :=
  let db : ℚ :=
    if isV4 then ((bits : ℚ) - 16) / 8 * 0.2 else ((bits : ℚ) - 32) / 24 * 0.2
  if db < 0 then 0 else db

/-- `combined := tsScore * (1 + diversityWeight*penalty) * (1 - depthBonus)`. -/
def combinedScore (tsScore penalty diversityWeight : ℚ) (p : PrefixM) : ℚ :=
  tsScore * (1 + diversityWeight * penalty) * (1 - depthBonus p.isV4 p.bits)

/-- The candidate-scoring pass shared by `SelectNextPrefix` and
`SelectBeam`: each leaf is paired with its combined score. -/
def scoreCandidates (diversityWeight : ℚ) (ts penalty : PrefixM → ℚ)
    (cands : List PrefixM) : List (PrefixM × ℚ) :=
  cands.map (fun c => (c, combinedScore (ts c) (penalty c) diversityWeight c))

/-- The depth bonus as the spec words it, with the claimed upper cap of 0.2
(for comparison against the code's `depthBonus`, which has no such cap). -/
def specDepthBonusCapped (isV4 : Bool) (bits : ℕ) : ℚ :=
  min (max 0 (if isV4 then ((bits : ℚ) - 16) / 8 else ((bits : ℚ) - 32) / 24) * 0.2) 0.2

theorem depthBonus_eq_max (isV4 : Bool) (bits : ℕ) :
    depthBonus isV4 bits =
      max 0 (if isV4 then ((bits : ℚ) - 16) / 8 else ((bits : ℚ) - 32) / 24) * 0.2 := by
  unfold depthBonus
  rcases isV4 with _ | _ <;> simp only [if_pos, if_neg, Bool.false_eq_true,
    not_false_iff, ite_true, ite_false]
  · rcases lt_or_ge (((bits : ℚ) - 32) / 24 * 0.2) 0 with h | h
    · rw [if_pos h, max_eq_left (by nlinarith), zero_mul]
    · rw [if_neg (not_lt.mpr h), max_eq_right (by nlinarith)]
  · rcases lt_or_ge (((bits : ℚ) - 16) / 8 * 0.2) 0 with h | h
    · rw [if_pos h, max_eq_left (by nlinarith), zero_mul]
    · rw [if_neg (not_lt.mpr h), max_eq_right (by nlinarith)]

/-- **C9 (amended)** — In `select_next_prefix` and `select_beam` each
candidate's combined score equals
`ts · (1 + diversity_weight · penalty) · (1 − depth_bonus)` with
`depth_bonus = max(0, (bits − 16)/8) · 0.2` for IPv4 and
`max(0, (bits − 32)/24) · 0.2` for IPv6; the bonus is clamped below at 0
but has no upper cap of 0.2: it stays ≤ 0.2 exactly when `bits ≤ 24`
(IPv4) resp. `bits ≤ 56` (IPv6), and reaches 0.4 at an IPv4 /32. -/
theorem combined_score_formula (w : ℚ) (ts penalty : PrefixM → ℚ)
    (cands : List PrefixM) :
    (∀ pr ∈ scoreCandidates w ts penalty cands,
      pr.2 = ts pr.1 * (1 + w * penalty pr.1) *
        (1 - max 0 (if pr.1.isV4 then ((pr.1.bits : ℚ) - 16) / 8
                    else ((pr.1.bits : ℚ) - 32) / 24) * 0.2)) ∧
    (∀ p : PrefixM, p.isV4 = true →
      (depthBonus p.isV4 p.bits ≤ 0.2 ↔ p.bits ≤ 24)) ∧
    (∀ p : PrefixM, p.isV4 = false →
      (depthBonus p.isV4 p.bits ≤ 0.2 ↔ p.bits ≤ 56)) ∧
    depthBonus true 32 = 2/5 := by
  refine ⟨?_, ?_, ?_, by norm_num [depthBonus]⟩
  · intro pr hpr
    unfold scoreCandidates at hpr
    rw [List.mem_map] at hpr
    obtain ⟨c, _, rfl⟩ := hpr
    rw [combinedScore, depthBonus_eq_max]
  · intro p hp
    rw [hp, depthBonus_eq_max]
    simp only [ite_true]
    constructor
    · intro h
      by_contra hb
      push_neg at hb
      have : (25 : ℚ) ≤ (p.bits : ℚ) := by exact_mod_cast hb
      have : max 0 (((p.bits : ℚ) - 16) / 8) ≥ (25 - 16) / 8 := by
        apply le_max_of_le_right; linarith
      nlinarith
    · intro h
      have : (p.bits : ℚ) ≤ 24 := by exact_mod_cast h
      have hmax : max 0 (((p.bits : ℚ) - 16) / 8) ≤ 1 := by
        apply max_le (by norm_num); linarith
      nlinarith
  · intro p hp
    rw [hp, depthBonus_eq_max]
    simp only [Bool.false_eq_true, ite_false]
    constructor
    · intro h
      by_contra hb
      push_neg at hb
      have : (57 : ℚ) ≤ (p.bits : ℚ) := by exact_mod_cast hb
      have : max 0 (((p.bits : ℚ) - 32) / 24) ≥ (57 - 32) / 24 := by
        apply le_max_of_le_right; linarith
      nlinarith
    · intro h
      have : (p.bits : ℚ) ≤ 56 := by exact_mod_cast h
      have hmax : max 0 (((p.bits : ℚ) - 32) / 24) ≤ 1 := by
        apply max_le (by norm_num); linarith
      nlinarith

/-- Counterexample to C9 as stated: at an IPv4 /32 candidate the code's
depth bonus is 0.4, exceeding the claimed cap of 0.2, so the combined score
differs from the spec's capped formula (`ts = 1`, `penalty = 0`, `w = 0`). -/
theorem depthBonus_cap_counterexample :
    depthBonus true 32 = 2/5 ∧
    specDepthBonusCapped true 32 = 1/5 ∧
    combinedScore 1 0 0 ⟨true, [1, 2, 3, 4], 32⟩ = 3/5 ∧
    (1 : ℚ) * (1 + 0 * 0) * (1 - specDepthBonusCapped true 32) = 4/5 ∧
    combinedScore 1 0 0 ⟨true, [1, 2, 3, 4], 32⟩ ≠
      1 * (1 + 0 * 0) * (1 - specDepthBonusCapped true 32) := by
  refine ⟨by norm_num [depthBonus], by norm_num [specDepthBonusCapped], ?_, ?_, ?_⟩ <;>
    norm_num [combinedScore, depthBonus, specDepthBonusCapped]

/-! ### Configuration (`internal/engine/config.go`)

`Config` holds the engine options; `Validate` checks ranges in order and
returns the first violation; `ApplyDefaults` (run by `engine.New` before any
`Run`) replaces non-positive fields with the defaults.  `Seed` and `Verbose`
take no part in validation or defaulting of interest here, but are kept.
-/

structure Config where
  budget : ℤ
  topN : ℤ
  concurrency : ℤ
  heads : ℤ
  beam : ℤ
  splitStepV4 : ℤ
  splitStepV6 : ℤ
  minSamplesSplit : ℤ
  maxBitsV4 : ℤ
  maxBitsV6 : ℤ
  seed : ℤ
  verbose : Bool
  splitInterval : ℤ
  diversityWeight : ℚ
  deriving Repr, DecidableEq

/-- Which field `Config.Validate` rejects. -/
inductive ConfigError where
  | budget | topN | concurrency | heads | beam
  | splitStepV4 | splitStepV6 | minSamplesSplit
  | maxBitsV4 | maxBitsV6 | diversityWeight
  deriving Repr, DecidableEq

/-- `DefaultConfig`. -/
def defaultConfig : Config :=
  { budget := 2000
    topN := 20
    concurrency := 200
    heads := 4
    beam := 32
    splitStepV4 := 2
    splitStepV6 := 4
    minSamplesSplit := 5
    maxBitsV4 := 24
    maxBitsV6 := 56
    seed := 0
    verbose := false
    splitInterval := 20
    diversityWeight := 3/10 }

/-- `Config.Validate`: the sequence of range checks, first failure wins. -/
def validate (c : Config) : Option ConfigError :=
  if c.budget ≤ 0 then some .budget
  else if c.topN ≤ 0 then some .topN
  else if c.concurrency ≤ 0 then some .concurrency
  else if c.heads ≤ 0 then some .heads
  else if c.beam ≤ 0 then some .beam
  else if c.splitStepV4 ≤ 0 ∨ c.splitStepV4 > 8 then some .splitStepV4
  else if c.splitStepV6 ≤ 0 ∨ c.splitStepV6 > 16 then some .splitStepV6
  else if c.minSamplesSplit ≤ 0 then some .minSamplesSplit
  else if c.maxBitsV4 ≤ 0 ∨ c.maxBitsV4 > 32 then some .maxBitsV4
  else if c.maxBitsV6 ≤ 0 ∨ c.maxBitsV6 > 128 then some .maxBitsV6
  else if c.diversityWeight < 0 ∨ c.diversityWeight > 1 then some .diversityWeight
  else none

/-- `Config.ApplyDefaults`: every non-positive field is replaced by its
default (`SplitInterval` included; `MaxBits`/`SplitStep` fields above their
range are left as they are). -/
def applyDefaults (c : Config) : Config :=
  { c with
    budget := if c.budget ≤ 0 then defaultConfig.budget else c.budget
    topN := if c.topN ≤ 0 then defaultConfig.topN else c.topN
    concurrency := if c.concurrency ≤ 0 then defaultConfig.concurrency else c.concurrency
    heads := if c.heads ≤ 0 then defaultConfig.heads else c.heads
    beam := if c.beam ≤ 0 then defaultConfig.beam else c.beam
    splitStepV4 := if c.splitStepV4 ≤ 0 then defaultConfig.splitStepV4 else c.splitStepV4
    splitStepV6 := if c.splitStepV6 ≤ 0 then defaultConfig.splitStepV6 else c.splitStepV6
    minSamplesSplit :=
      if c.minSamplesSplit ≤ 0 then defaultConfig.minSamplesSplit else c.minSamplesSplit
    maxBitsV4 := if c.maxBitsV4 ≤ 0 then defaultConfig.maxBitsV4 else c.maxBitsV4
    maxBitsV6 := if c.maxBitsV6 ≤ 0 then defaultConfig.maxBitsV6 else c.maxBitsV6
    splitInterval :=
      if c.splitInterval ≤ 0 then defaultConfig.splitInterval else c.splitInterval
    diversityWeight :=
      if c.diversityWeight ≤ 0 then defaultConfig.diversityWeight else c.diversityWeight }

/-! ### Top-N collector (`internal/engine/result.go`)

`topNHeap` is a Go `container/heap` over a slice of `TopResult`, with
`Less(i,j) = items[i].ScoreMS > items[j].ScoreMS` (a max-heap on score, so
the root is the worst kept entry).  The heap algorithms `up`, `down`, `Push`,
`Pop` and `Fix` are transcribed from `container/heap`.  Only the fields the
collector reads (`IP`, `ScoreMS`) plus identifying payload are modelled; the
remaining `TopResult` fields are carried through unchanged by every
operation and play no part in the claims. -/

structure TopRes where
  ip : ℕ
  pfx : PrefixM
  ok : Bool
  scoreMS : ℚ
  deriving Repr, DecidableEq

instance : Inhabited TopRes := ⟨⟨0, ⟨true, [], 0⟩, false, 0⟩⟩

/-- Slice indexing (`h.items[i]`). -/
def lget (l : List TopRes) (i : ℕ) : TopRes := l.getD i default

/-- `h.Swap(i, j)`. -/
def lswap (l : List TopRes) (i j : ℕ) : List TopRes :=
  (l.set i (lget l j)).set j (lget l i)

/-- `container/heap` `up`: sift index `j` toward the root while it is
`Less` than its parent (here: has a larger score). -/
def heapUp (l : List TopRes) (j : ℕ) : List TopRes :=
  if h : 0 < j then
    let i := (j - 1) / 2
    if (lget l j).scoreMS > (lget l i).scoreMS then heapUp (lswap l i j) i
    else l
  else l
termination_by j
decreasing_by
  simp_wf
  omega

/-- `container/heap` `down` within `[0, n)`, returning the final index of
the sifted element (Go's `down` reports `i > i0`, i.e. whether it moved). -/
def heapDownAux (l : List TopRes) (i n : ℕ) : List TopRes × ℕ :=
  if h : 2 * i + 1 < n then
    let j := if 2 * i + 2 < n ∧ (lget l (2 * i + 2)).scoreMS > (lget l (2 * i + 1)).scoreMS
             then 2 * i + 2 else 2 * i + 1
    if (lget l j).scoreMS > (lget l i).scoreMS then heapDownAux (lswap l i j) j n
    else (l, i)
  else (l, i)
termination_by n - i
decreasing_by
  simp_wf
  split_ifs with hc
  · omega
  · omega

def heapDown (l : List TopRes) (i n : ℕ) : List TopRes := (heapDownAux l i n).1

/-- `heap.Fix(h, i)`: `if !down(i, Len()) { up(i) }`. -/
def heapFix (l : List TopRes) (i : ℕ) : List TopRes :=
  let r := heapDownAux l i l.length
  if r.2 > i then r.1 else heapUp r.1 i

/-- `heap.Push(h, x)`: append, then `up` the new last index. -/
def heapPush (l : List TopRes) (x : TopRes) : List TopRes :=
  heapUp (l ++ [x]) l.length

/-- `heap.Pop(h)`: swap root and last, `down(0, n-1)`, remove and return
the last element (the old root). -/
def heapPopGo (l : List TopRes) : TopRes × List TopRes :=
  let n := l.length - 1
  let l1 := lswap l 0 n
  let l2 := heapDown l1 0 n
  (lget l2 n, l2.take n)

structure TopNCollector where
  n : ℤ
  items : List TopRes

/-- `NewTopNCollector` (the `heap.Init` call on the empty slice is a no-op). -/
def newTopNCollector (n : ℤ) : TopNCollector := ⟨n, []⟩

/-- The `ipSeen` lookup.  The Go collector rebuilds `ipSeen` from `items`
after every mutation (`rebuildIPMap`), so the map is the index of the entry
with the given IP; under the collector's pairwise-distinct-IP invariant
(proved below) that entry is unique. -/
def ipIndex (l : List TopRes) (ip : ℕ) : Option ℕ :=
  l.findIdx? (fun t => t.ip == ip)

/-- `TopNCollector.Consider`. -/
def consider (c : TopNCollector) (r : TopRes) : TopNCollector :=
  if c.n ≤ 0 then c
  else
    match ipIndex c.items r.ip with
    | some idx =>
      if r.scoreMS < (lget c.items idx).scoreMS then
        { c with items := heapFix (c.items.set idx r) idx }
      else c
    | none =>
      if (c.items.length : ℤ) < c.n then
        { c with items := heapPush c.items r }
      else if r.scoreMS < (lget c.items 0).scoreMS then
        -- pop the worst (the root), drop its IP, push the new entry
        { c with items := heapPush (heapPopGo c.items).2 r }
      else c

/-- Fold `Consider` over a run's stream of results. -/
def considerAll (n : ℤ) (rs : List TopRes) : TopNCollector :=
  rs.foldl consider (newTopNCollector n)

/-- The index of the first minimal-score entry (the `minIdx` scan of
`Snapshot`'s selection sort, which updates on strict `<`). -/
def selMinIdx : List TopRes → ℕ
  | [] => 0
  | [_] => 0
  | x :: xs =>
    let k := selMinIdx xs
    if (lget xs k).scoreMS < x.scoreMS then k + 1 else 0

/-- `TopNCollector.Snapshot`'s in-place selection sort, modelled on the
unsorted suffix: swap the first minimal entry to the front and recurse. -/
def selSort (l : List TopRes) : List TopRes :=
  match l with
  | [] => []
  | x :: xs =>
    let ys := lswap (x :: xs) 0 (selMinIdx (x :: xs))
    lget ys 0 :: selSort ys.tail
termination_by l.length
decreasing_by
  simp_wf
  simp [lswap, List.length_set]

/-- `TopNCollector.Snapshot`: all entries sorted ascending by score. -/
def snapshot (c : TopNCollector) : List TopRes := selSort c.items

/-! ### `Engine.Run` control flow (`internal/engine/engine.go`)

`Run` validates the (defaulted) config, loads and deduplicates CIDRs,
runs the scheduling loop, drains stragglers, and converts a cancellation
or deadline error from the loop into a normal return of the top-N
snapshot.  The external pieces are abstracted: CIDR parsing as an
`Option (List PrefixM)`, the loop outcome as an `Option ScheduleErr`,
and the collector contents at return time as a `TopNCollector`. -/

inductive ScheduleErr where
  | canceled | deadlineExceeded | other
  deriving Repr, DecidableEq

inductive RunError where
  | config (e : ConfigError)
  | parse
  | noInput
  | sched (e : ScheduleErr)
  deriving Repr, DecidableEq

/-- `Engine.Run`'s decision structure. -/
def runModel (cfg : Config) (parsed : Option (List PrefixM))
    (schedErr : Option ScheduleErr) (finalTopN : TopNCollector) :
    Except RunError (List TopRes) :=
  match validate cfg with
  | some e => .error (.config e)
  | none =>
    match parsed with
    | none => .error .parse
    | some prefixes =>
      if prefixes.length = 0 then .error .noInput
      else
        match schedErr with
        | some .other => .error (.sched .other)
        | _ => .ok (snapshot finalTopN)

/-- `engine.New` applies the defaults to the configuration before any `Run`
can see it; a run through the public constructor therefore validates
`applyDefaults cfg`. -/
def runFromNew (cfg : Config) (parsed : Option (List PrefixM))
    (schedErr : Option ScheduleErr) (finalTopN : TopNCollector) :
    Except RunError (List TopRes) :=
  runModel (applyDefaults cfg) parsed schedErr finalTopN

/-- **C6** — When the run is cancelled externally (context cancelled or
deadline exceeded), `Run` returns the current top-N snapshot and a nil
error: cancellation never surfaces as an error. -/
theorem run_cancellation_returns_snapshot (cfg : Config) (prefixes : List PrefixM)
    (top : TopNCollector) (hv : validate cfg = none) (hne : prefixes ≠ []) :
    runModel cfg (some prefixes) (some .canceled) top = .ok (snapshot top) ∧
    runModel cfg (some prefixes) (some .deadlineExceeded) top = .ok (snapshot top) := by
  have hlen : ¬prefixes.length = 0 := by
    intro h; exact hne (List.length_eq_zero.mp h)
  constructor <;> · unfold runModel; rw [hv]; simp [hlen]

/-- Witness for C6: a concrete valid config, one root prefix, an empty
collector; cancellation and deadline both return `ok []`. -/
theorem run_cancellation_returns_snapshot_witness :
    runModel defaultConfig (some [⟨true, [10, 0, 0, 0], 8⟩]) (some .canceled)
      (newTopNCollector 20) = .ok (snapshot (newTopNCollector 20)) ∧
    runModel defaultConfig (some [⟨true, [10, 0, 0, 0], 8⟩]) (some .deadlineExceeded)
      (newTopNCollector 20) = .ok (snapshot (newTopNCollector 20)) :=
  run_cancellation_returns_snapshot defaultConfig [⟨true, [10, 0, 0, 0], 8⟩]
    (newTopNCollector 20) (by norm_num [validate, defaultConfig])
    (by intro h; simp at h)

/-! C7: what survives `ApplyDefaults` to be rejected by `Validate`. -/

theorem applyDefaults_fields (c : Config) :
    0 < (applyDefaults c).budget ∧ 0 < (applyDefaults c).topN ∧
    0 < (applyDefaults c).concurrency ∧ 0 < (applyDefaults c).heads ∧
    0 < (applyDefaults c).beam ∧ 0 < (applyDefaults c).minSamplesSplit ∧
    0 < (applyDefaults c).splitStepV4 ∧ 0 < (applyDefaults c).splitStepV6 ∧
    0 < (applyDefaults c).maxBitsV4 ∧ 0 < (applyDefaults c).maxBitsV6 ∧
    0 < (applyDefaults c).diversityWeight := by
  unfold applyDefaults defaultConfig
  refine ⟨?_, ?_, ?_, ?_, ?_, ?_, ?_, ?_, ?_, ?_, ?_⟩ <;> dsimp only <;>
    split_ifs <;> first | omega | exact lt_of_not_le (by assumption) | norm_num

/-- **C7 (amended)** — `engine.New` applies defaults before `Run` validates,
so non-positive fields (budget, top_n, concurrency, heads, beam,
split steps, min_samples_split, max_bits, diversity_weight ≤ 0) are silently
replaced by their defaults rather than rejected; `Run` returns a
configuration-invalid error, synchronously before any probe, exactly when a
field exceeds its upper bound: `split_step_v4 > 8`, `split_step_v6 > 16`,
`max_bits_v4 > 32`, `max_bits_v6 > 128`, or `diversity_weight > 1`. -/
theorem run_config_validation (c : Config) :
    validate (applyDefaults c) =
      (if c.splitStepV4 > 8 then some .splitStepV4
       else if c.splitStepV6 > 16 then some .splitStepV6
       else if c.maxBitsV4 > 32 then some .maxBitsV4
       else if c.maxBitsV6 > 128 then some .maxBitsV6
       else if c.diversityWeight > 1 then some .diversityWeight
       else none) ∧
    (∀ (e : ConfigError) (parsed : Option (List PrefixM))
       (sched : Option ScheduleErr) (top : TopNCollector),
       validate (applyDefaults c) = some e →
       runFromNew c parsed sched top = .error (.config e)) := by
  obtain ⟨h1, h2, h3, h4, h5, h6, h7, h8, h9, h10, h11⟩ := applyDefaults_fields c
  constructor
  · have e4 : ((applyDefaults c).splitStepV4 ≤ 0 ∨ (applyDefaults c).splitStepV4 > 8)
        ↔ c.splitStepV4 > 8 := by
      unfold applyDefaults defaultConfig; dsimp only; split_ifs with h <;> omega
    have e6 : ((applyDefaults c).splitStepV6 ≤ 0 ∨ (applyDefaults c).splitStepV6 > 16)
        ↔ c.splitStepV6 > 16 := by
      unfold applyDefaults defaultConfig; dsimp only; split_ifs with h <;> omega
    have e9 : ((applyDefaults c).maxBitsV4 ≤ 0 ∨ (applyDefaults c).maxBitsV4 > 32)
        ↔ c.maxBitsV4 > 32 := by
      unfold applyDefaults defaultConfig; dsimp only; split_ifs with h <;> omega
    have e10 : ((applyDefaults c).maxBitsV6 ≤ 0 ∨ (applyDefaults c).maxBitsV6 > 128)
        ↔ c.maxBitsV6 > 128 := by
      unfold applyDefaults defaultConfig; dsimp only; split_ifs with h <;> omega
    have e11 : ((applyDefaults c).diversityWeight < 0 ∨ (applyDefaults c).diversityWeight > 1)
        ↔ c.diversityWeight > 1 := by
      unfold applyDefaults defaultConfig; dsimp only; split_ifs with h
      · constructor
        · rintro (hh | hh) <;> [linarith; linarith]
        · intro hh; linarith
      · constructor
        · rintro (hh | hh) <;> [linarith; exact hh]
        · intro hh; right; exact hh
    unfold validate
    rw [if_neg (by omega), if_neg (by omega), if_neg (by omega), if_neg (by omega),
      if_neg (by omega), if_congr e4 rfl rfl]
    by_cases hc4 : c.splitStepV4 > 8
    · rw [if_pos hc4, if_pos hc4]
    rw [if_neg hc4, if_neg hc4, if_congr e6 rfl rfl]
    by_cases hc6 : c.splitStepV6 > 16
    · rw [if_pos hc6, if_pos hc6]
    rw [if_neg hc6, if_neg hc6, if_neg (by omega), if_congr e9 rfl rfl]
    by_cases hc9 : c.maxBitsV4 > 32
    · rw [if_pos hc9, if_pos hc9]
    rw [if_neg hc9, if_neg hc9, if_congr e10 rfl rfl]
    by_cases hc10 : c.maxBitsV6 > 128
    · rw [if_pos hc10, if_pos hc10]
    rw [if_neg hc10, if_neg hc10, if_congr e11 rfl rfl]
  · intro e parsed sched top hv
    unfold runFromNew runModel
    rw [hv]

/-- Counterexample to C7 as stated: a configuration with `budget = -1`
(out of its documented range `> 0`) is not rejected — `engine.New`'s
`ApplyDefaults` silently replaces it with the default 2000, `Validate`
passes, and the run proceeds to return a result instead of a
configuration-invalid error. -/
theorem config_invalid_counterexample :
    (let cfg : Config := { defaultConfig with budget := -1 }
     validate cfg = some .budget ∧
     (applyDefaults cfg).budget = 2000 ∧
     validate (applyDefaults cfg) = none ∧
     runFromNew cfg (some [⟨true, [10, 0, 0, 0], 8⟩]) none (newTopNCollector 20)
       = .ok []) := by
  refine ⟨by norm_num [validate, defaultConfig], by norm_num [applyDefaults, defaultConfig], ?_, ?_⟩
  · norm_num [validate, applyDefaults, defaultConfig]
  · norm_num [runFromNew, runModel, validate, applyDefaults, defaultConfig,
      snapshot, newTopNCollector, selSort]

/-! ### Address sampling (`internal/bandit/thompson.go`, `sampleAddrFromPrefix`)

`SampleIP` locks the sampler's RNG and calls `sampleAddrFromPrefix`, which
masks the prefix and dispatches on the address family.  The RNG draws are
abstracted: one arbitrary `ℕ` per `rng.Uint64()` call (the claim quantifies
over every RNG state).  IPv4 is modelled at the `uint32` level (the final
`AddrFrom4` repacks the same 32 bits into bytes); IPv6 at the byte-slice
level exactly as the code's fill loop works. -/

/-- `netip.Prefix.Masked()` for a 32-bit address: zero the host bits. -/
def maskedAddr4 (addr bits : ℕ) : ℕ := addr >>> (32 - bits) <<< (32 - bits)

/-- `sampleAddr4`: keep the masked base, OR uniform random host bits
(`uint32(rng.Uint64()) & ((1 << hostBits) - 1)`); a /32 returns the exact
address. -/
def sampleAddr4 (base bits rand : ℕ) : ℕ :=
  let hostBits := 32 - bits
  if hostBits = 0 then base
  else base ||| ((rand % 2 ^ 32) &&& ((2 ^ hostBits - 1) % 2 ^ 32))

/-- The `SampleIP` path for IPv4: mask, then fill host bits. -/
def sampleIP4 (addr bits rand : ℕ) : ℕ :=
  sampleAddr4 (maskedAddr4 addr bits) bits rand

/-- `netip.Prefix.Masked()` on the 16-byte form: per byte keep the network
bits, zero the host bits. -/
def maskedBytes (bytes : List ℕ) (bits : ℕ) : List ℕ :=
  (List.range bytes.length).map (fun j =>
    let b := bytes.getD j 0
    if 8 * (j + 1) ≤ bits then b
    else if bits ≤ 8 * j then 0
    else b &&& (255 ^^^ (2 ^ (8 * (j + 1) - bits) - 1)))

/-- The byte-filling loop of `sampleAddr6`, on the reversed byte list
(the Go loop walks `i = 15` down to `0`): whole random bytes while at least
8 host bits remain, then one partial byte
`(result[i] & ^mask) | (byte(rng.Uint64()) & mask)`, then stop. -/
def fillHostBytesRev : List ℕ → List ℕ → ℕ → List ℕ
  | [], _, _ => []
  | b :: rest, rands, rem =>
    if 8 ≤ rem then (rands.headD 0 % 256) :: fillHostBytesRev rest rands.tail (rem - 8)
    else if 0 < rem then
      let mask := 2 ^ rem - 1
      ((b &&& (255 ^^^ mask)) ||| ((rands.headD 0 % 256) &&& mask)) :: rest
    else b :: rest

/-- `sampleAddr6`: copy the (masked) address, fill `128 - bits` random bits
from the last byte backwards; a /128 returns the exact address. -/
def sampleAddr6 (bytes : List ℕ) (bits : ℕ) (rands : List ℕ) : List ℕ :=
  let hostBits := 128 - bits
  if hostBits = 0 then bytes
  else (fillHostBytesRev bytes.reverse rands hostBits).reverse

/-- The `SampleIP` path for IPv6: mask, then fill host bits. -/
def sampleIP6 (bytes : List ℕ) (bits : ℕ) (rands : List ℕ) : List ℕ :=
  sampleAddr6 (maskedBytes bytes bits) bits rands

theorem fillHostBytesRev_length (l rands : List ℕ) (rem : ℕ) :
    (fillHostBytesRev l rands rem).length = l.length := by
  induction l generalizing rands rem with
  | nil => rfl
  | cons b rest ih =>
    unfold fillHostBytesRev
    split_ifs <;> simp [ih]

theorem fillHostBytesRev_getD_unchanged :
    ∀ (l rands : List ℕ) (rem i : ℕ), rem ≤ 8 * i →
      (fillHostBytesRev l rands rem).getD i 0 = l.getD i 0 := by
  intro l
  induction l with
  | nil => intro rands rem i _; rfl
  | cons b rest ih =>
    intro rands rem i hrem
    unfold fillHostBytesRev
    split_ifs with h8 h0
    · have hi : 0 < i := by omega
      obtain ⟨i', rfl⟩ : ∃ i', i = i' + 1 := ⟨i - 1, by omega⟩
      simp only [List.getD_cons_succ]
      exact ih rands.tail (rem - 8) i' (by omega)
    · have hi : 0 < i := by omega
      obtain ⟨i', rfl⟩ : ∃ i', i = i' + 1 := ⟨i - 1, by omega⟩
      simp only [List.getD_cons_succ]
    · rfl

theorem fillHostBytesRev_getD_partialByte :
    ∀ (l rands : List ℕ) (rem i t : ℕ), 8 * i < rem → rem < 8 * (i + 1) →
      t < 8 - (rem - 8 * i) →
      byteBit ((fillHostBytesRev l rands rem).getD i 0) t = byteBit (l.getD i 0) t := by
  intro l
  induction l with
  | nil => intro rands rem i t _ _ _; rfl
  | cons b rest ih =>
    intro rands rem i t h1 h2 ht
    unfold fillHostBytesRev
    split_ifs with h8 h0
    · have hi : 0 < i := by omega
      obtain ⟨i', rfl⟩ : ∃ i', i = i' + 1 := ⟨i - 1, by omega⟩
      simp only [List.getD_cons_succ]
      exact ih rands.tail (rem - 8) i' t (by omega) (by omega) (by omega)
    · have hi : i = 0 := by omega
      subst hi
      simp only [List.getD_cons_zero]
      -- the partial byte keeps its high 8 - rem bits
      unfold byteBit
      have hs : rem ≤ 7 - t := by omega
      have ht8 : 7 - t < 8 := by omega
      rw [Nat.testBit_or, Nat.testBit_and, Nat.testBit_and]
      have hmask : ((2 : ℕ) ^ rem - 1).testBit (7 - t) = false := by
        rw [Nat.testBit_two_pow_sub_one]
        simp; omega
      have h255 : ((255 : ℕ) ^^^ (2 ^ rem - 1)).testBit (7 - t) = true := by
        rw [Nat.testBit_xor, hmask]
        have : ((255 : ℕ)).testBit (7 - t) = true := by
          have : (255 : ℕ) = 2 ^ 8 - 1 := by norm_num
          rw [this, Nat.testBit_two_pow_sub_one]
          simp; omega
        rw [this]; rfl
      rw [hmask, h255]
      simp
    · rfl

/-- `getD` through `reverse`. -/
theorem getD_reverse (l : List ℕ) (i : ℕ) (h : i < l.length) :
    l.reverse.getD i 0 = l.getD (l.length - 1 - i) 0 := by
  rw [List.getD_eq_getElem l.reverse 0 (by simpa using h),
      List.getD_eq_getElem l 0 (by omega), List.getElem_reverse]

theorem maskedBytes_length (bytes : List ℕ) (bits : ℕ) :
    (maskedBytes bytes bits).length = bytes.length := by
  simp [maskedBytes]

/-- **C5** — For every prefix and every RNG state, `SampleIP` returns an
address inside the masked prefix: the leading `bits` network bits equal the
masked network address, only host bits are randomized; an IPv4 /32 and an
IPv6 /128 return exactly the network address. -/
theorem sampleIP_inside_masked :
    (∀ (addr bits rand : ℕ), bits ≤ 32 →
      sampleIP4 addr bits rand >>> (32 - bits) = maskedAddr4 addr bits >>> (32 - bits)) ∧
    (∀ (addr rand : ℕ), sampleIP4 addr 32 rand = maskedAddr4 addr 32) ∧
    (∀ (bytes rands : List ℕ) (bits : ℕ), bytes.length = 16 → bits ≤ 128 →
      ∀ k, k < bits →
        bitAt (sampleIP6 bytes bits rands) k = bitAt (maskedBytes bytes bits) k) ∧
    (∀ (bytes rands : List ℕ), sampleIP6 bytes 128 rands = maskedBytes bytes 128) := by
  refine ⟨?_, ?_, ?_, ?_⟩
  · intro addr bits rand hbits
    unfold sampleIP4 sampleAddr4
    by_cases h0 : 32 - bits = 0
    · rw [if_pos h0]
    · rw [if_neg h0]
      set h := 32 - bits with hh
      set base := maskedAddr4 addr bits with hbase
      have hmask : ((2 : ℕ) ^ h - 1) % 2 ^ 32 = 2 ^ h - 1 := by
        apply Nat.mod_eq_of_lt
        have : (2 : ℕ) ^ h ≤ 2 ^ 32 := Nat.pow_le_pow_right (by norm_num) (by omega)
        omega
      apply Nat.eq_of_testBit_eq
      intro i
      rw [Nat.testBit_shiftRight, Nat.testBit_shiftRight, Nat.testBit_or]
      have hhost : ((rand % 2 ^ 32) &&& ((2 ^ h - 1) % 2 ^ 32)).testBit (h + i) = false := by
        have hle : (rand % 2 ^ 32) &&& ((2 ^ h - 1) % 2 ^ 32) < 2 ^ h := by
          rw [hmask]
          have h1 : (rand % 2 ^ 32) &&& (2 ^ h - 1) ≤ 2 ^ h - 1 := Nat.and_le_right
          have h2 : (0 : ℕ) < 2 ^ h := Nat.pos_pow_of_pos h (by norm_num)
          omega
        exact Nat.testBit_eq_false_of_lt
          (lt_of_lt_of_le hle (Nat.pow_le_pow_right (by norm_num) (by omega)))
      rw [hhost, Bool.or_false]
  · intro addr rand
    unfold sampleIP4 sampleAddr4
    norm_num
  · intro bytes rands bits hlen hbits k hk
    unfold sampleIP6 sampleAddr6
    by_cases h0 : 128 - bits = 0
    · rw [if_pos h0]
    · rw [if_neg h0]
      set mb := maskedBytes bytes bits with hmb
      have hmlen : mb.length = 16 := by rw [hmb, maskedBytes_length, hlen]
      have hfl : (fillHostBytesRev mb.reverse rands (128 - bits)).length = 16 := by
        rw [fillHostBytesRev_length, List.length_reverse, hmlen]
      have hrevlen : mb.reverse.length = 16 := by rw [List.length_reverse, hmlen]
      -- the bit `k` lives in byte `j = k / 8`, position `15 - j` from the end
      have hj : k / 8 < 16 := by omega
      unfold bitAt
      rw [getD_reverse _ (k / 8) (by rw [hfl]; omega), hfl]
      -- position in the reversed list
      set i := 16 - 1 - k / 8 with hi
      have hrev : mb.reverse.getD i 0 = mb.getD (k / 8) 0 := by
        rw [getD_reverse mb i (by rw [hmlen]; omega), hmlen]
        congr 1
        omega
      rcases Nat.lt_or_ge bits (8 * (k / 8) + 8) with hpart | hfull
      · -- the byte holding bit k is partially network, partially host
        have h1 : 8 * i < 128 - bits := by omega
        have h2 : 128 - bits < 8 * (i + 1) := by omega
        have h3 : k % 8 < 8 - ((128 - bits) - 8 * i) := by omega
        rw [fillHostBytesRev_getD_partialByte mb.reverse rands (128 - bits) i (k % 8) h1 h2 h3,
          hrev]
      · -- the whole byte is network bits: unchanged by the fill
        have hnet : 128 - bits ≤ 8 * i := by omega
        rw [fillHostBytesRev_getD_unchanged mb.reverse rands (128 - bits) i hnet, hrev]
  · intro bytes rands
    unfold sampleIP6 sampleAddr6
    norm_num

/-- Witness for C5 at concrete inputs: sampling `10.0.0.0/8` with a
concrete random draw keeps the leading octet; a /32 and /128 return the
network address. -/
theorem sampleIP_inside_masked_witness :
    sampleIP4 (10 * 2 ^ 24) 8 12345 >>> 24 = maskedAddr4 (10 * 2 ^ 24) 8 >>> 24 ∧
    sampleIP4 77 32 999 = maskedAddr4 77 32 ∧
    bitAt (sampleIP6 (List.replicate 16 7) 16 [3, 5]) 3
      = bitAt (maskedBytes (List.replicate 16 7) 16) 3 ∧
    sampleIP6 (List.replicate 16 7) 128 [3] = maskedBytes (List.replicate 16 7) 128 := by
  refine ⟨sampleIP_inside_masked.1 (10 * 2 ^ 24) 8 12345 (by norm_num),
    sampleIP_inside_masked.2.1 77 999, ?_,
    sampleIP_inside_masked.2.2.2 (List.replicate 16 7) [3]⟩
  exact sampleIP_inside_masked.2.2.1 (List.replicate 16 7) [3, 5] 16 (by simp) (by norm_num)
    3 (by norm_num)

/-! ### Arm tree and the scheduling loop (`internal/bandit/tree.go`,
`internal/engine/engine.go`)

The tree's `nodeMap` is modelled as an association list keyed by masked
prefix (`NewArmTree`, `GetOrCreateNode` and `SplitNode` all insert masked
keys, each at most once); the `roots`/`parent`/`children` links do not touch
the counters and are omitted.  `ArmTree.Update` is `GetOrCreateNode`
followed by one `ArmNode.Update`.  `SplitNode` creates a zero-sample arm per
child prefix not already present and marks the parent split.  The scheduler
(`Engine.schedule`) processes one result per completed probe —
`processOneResult` performs exactly one `tree.Update` — incrementing
`completed`, and stops when `completed` reaches the budget; split passes
are interleaved.  Results and split passes are modelled as an event
stream. -/

/-- The tree's association list: masked prefix to arm. -/
abbrev ArmTree := List (PrefixM × ArmNode)

/-- `netip.Prefix.Masked()` on the model prefix. -/
def maskPrefix (p : PrefixM) : PrefixM :=
  ⟨p.isV4, maskedBytes p.bytes p.bits, p.bits⟩

def treeKeys (t : ArmTree) : List PrefixM := t.map (fun e => e.1)

/-- `nodeMap` lookup (`GetNode` without the mask step). -/
def lookupArm : ArmTree → PrefixM → Option ArmNode
  | [], _ => none
  | e :: rest, q => if e.1 = q then some e.2 else lookupArm rest q

/-- `ArmTree.Update`: `GetOrCreateNode(prefix).Update(...)` — update the
existing arm in place, or create a fresh arm and update it once. -/
def treeUpdate (t : ArmTree) (p0 : PrefixM) (ok : Bool) (lat tm : ℚ) : ArmTree :=
  let p := maskPrefix p0
  match lookupArm t p with
  | some _ => t.map (fun e => if e.1 = p then (e.1, armUpdate e.2 ok lat tm) else e)
  | none => t ++ [(p, armUpdate newArmNode ok lat tm)]

/-- `ArmTree.SplitNode`: create an arm for each child prefix not already in
the map, then `MarkSplit` the parent.  (`CanSplit` gating and the external
`cidr.SplitPrefix` enumeration decide *whether* and *which* children arrive
here; neither touches any counter.) -/
def treeSplit (t : ArmTree) (parent : PrefixM) (children : List PrefixM) : ArmTree :=
  let t1 := children.foldl (fun acc c =>
    let c := maskPrefix c
    match lookupArm acc c with
    | some _ => acc
    | none => acc ++ [(c, newArmNode)]) t
  t1.map (fun e =>
    if e.1 = maskPrefix parent then (e.1, { e.2 with isSplit := true }) else e)

/-- `NewArmTree`: mask and deduplicate the root prefixes, one fresh arm
each. -/
def newArmTree (prefixes : List PrefixM) : ArmTree :=
  prefixes.foldl (fun t p =>
    let p := maskPrefix p
    match lookupArm t p with
    | some _ => t
    | none => t ++ [(p, newArmNode)]) []

/-- Total samples over all arms (`ArmTree.TotalSamples`). -/
def sumSamples (t : ArmTree) : ℕ := (t.map (fun e => e.2.samples)).sum

/-- One event seen by the scheduling loop: a completed probe result for the
task's prefix, or a split performed by a `trySplit` pass. -/
inductive SchedEvent where
  | result (p : PrefixM) (ok : Bool) (latencyMS : ℚ)
  | split (parent : PrefixM) (children : List PrefixM)

def applyEvent (tm : ℚ) (t : ArmTree) : SchedEvent → ArmTree
  | .result p ok lat => treeUpdate t p ok lat tm
  | .split parent children => treeSplit t parent children

/-- Number of probe results in an event stream. -/
def resultCount (evs : List SchedEvent) : ℕ :=
  evs.countP (fun e => match e with | .result _ _ _ => true | _ => false)

/-- `Engine.schedule`'s event loop: process events while `completed < B`;
each result bumps `completed` by one, and the loop stops as soon as the
budget is reached.  Returns the final tree and `completed`. -/
def scheduleLoop (tm : ℚ) (B : ℕ) : ArmTree → ℕ → List SchedEvent → ArmTree × ℕ
  | t, completed, [] => (t, completed)
  | t, completed, e :: rest =>
    if completed < B then
      match e with
      | .result p ok lat =>
        scheduleLoop tm B (treeUpdate t p ok lat tm) (completed + 1) rest
      | .split parent children =>
        scheduleLoop tm B (treeSplit t parent children) completed rest
    else (t, completed)

/-! Auxiliary facts about the tree operations. -/

theorem lookupArm_isSome_iff (t : ArmTree) (q : PrefixM) :
    (lookupArm t q).isSome ↔ q ∈ treeKeys t := by
  induction t with
  | nil => simp [lookupArm, treeKeys]
  | cons e rest ih =>
    unfold lookupArm
    by_cases h : e.1 = q
    · simp [h, treeKeys]
    · simp only [if_neg h, treeKeys, List.map_cons, List.mem_cons]
      rw [ih]
      constructor
      · intro hm; exact Or.inr hm
      · rintro (hm | hm)
        · exact absurd hm.symm h
        · exact hm


theorem treeUpdate_keys (t : ArmTree) (p0 : PrefixM) (ok : Bool) (lat tm : ℚ) :
    treeKeys (treeUpdate t p0 ok lat tm) =
      if (lookupArm t (maskPrefix p0)).isSome then treeKeys t
      else treeKeys t ++ [maskPrefix p0] := by
  unfold treeUpdate
  cases h : lookupArm t (maskPrefix p0) with
  | some a =>
    simp only [h, Option.isSome_some, if_true, treeKeys, List.map_map]
    apply List.map_congr_left
    intro e _
    by_cases he : e.1 = maskPrefix p0 <;> simp [he]
  | none => simp [h, treeKeys]

theorem treeUpdate_nodup {t : ArmTree} (h : (treeKeys t).Nodup)
    (p0 : PrefixM) (ok : Bool) (lat tm : ℚ) :
    (treeKeys (treeUpdate t p0 ok lat tm)).Nodup := by
  rw [treeUpdate_keys]
  cases hs : (lookupArm t (maskPrefix p0)).isSome
  · rw [if_neg (by exact Bool.false_ne_true)]
    rw [List.nodup_append]
    refine ⟨h, List.nodup_singleton _, ?_⟩
    intro q hq
    simp only [List.mem_singleton]
    intro hqe
    subst hqe
    have := (lookupArm_isSome_iff t (maskPrefix p0)).mpr hq
    rw [hs] at this
    exact Bool.noConfusion this
  · rw [if_pos (by rfl)]
    exact h

theorem mapUpdate_sum_of_not_mem (t : ArmTree) (p : PrefixM) (ok : Bool) (lat tm : ℚ)
    (h : p ∉ treeKeys t) :
    t.map (fun e => if e.1 = p then (e.1, armUpdate e.2 ok lat tm) else e) = t := by
  induction t with
  | nil => rfl
  | cons e rest ih =>
    rw [show treeKeys (e :: rest) = e.1 :: treeKeys rest from rfl, List.mem_cons,
      not_or] at h
    have h1 : ¬(e.1 = p) := fun he => h.1 he.symm
    simp only [List.map_cons, if_neg h1]
    rw [ih h.2]

theorem mapUpdate_sum_mem (t : ArmTree) (p : PrefixM) (ok : Bool) (lat tm : ℚ)
    (hnd : (treeKeys t).Nodup) (hm : p ∈ treeKeys t) :
    sumSamples (t.map (fun e => if e.1 = p then (e.1, armUpdate e.2 ok lat tm) else e))
      = sumSamples t + 1 := by
  induction t with
  | nil => simp [treeKeys] at hm
  | cons e rest ih =>
    rw [show treeKeys (e :: rest) = e.1 :: treeKeys rest from rfl, List.nodup_cons] at hnd
    obtain ⟨hne, hndr⟩ := hnd
    rw [show treeKeys (e :: rest) = e.1 :: treeKeys rest from rfl, List.mem_cons] at hm
    by_cases he : e.1 = p
    · simp only [List.map_cons, if_pos he, sumSamples, List.sum_cons, armUpdate_samples]
      rw [mapUpdate_sum_of_not_mem rest p ok lat tm (by rw [← he]; exact hne)]
      omega
    · have hm2 : p ∈ treeKeys rest := by
        rcases hm with hm | hm
        · exact absurd hm.symm he
        · exact hm
      simp only [List.map_cons, if_neg he, sumSamples, List.sum_cons]
      have := ih hndr hm2
      simp only [sumSamples] at this
      omega

theorem treeUpdate_sum {t : ArmTree} (h : (treeKeys t).Nodup)
    (p0 : PrefixM) (ok : Bool) (lat tm : ℚ) :
    sumSamples (treeUpdate t p0 ok lat tm) = sumSamples t + 1 := by
  unfold treeUpdate
  cases hl : lookupArm t (maskPrefix p0) with
  | none =>
    simp only [hl, sumSamples, List.map_append, List.sum_append, List.map_cons,
      List.sum_cons, List.map_nil, List.sum_nil, armUpdate_samples]
    have hz : newArmNode.samples = 0 := rfl
    omega
  | some a =>
    simp only [hl]
    exact mapUpdate_sum_mem t (maskPrefix p0) ok lat tm h
      ((lookupArm_isSome_iff t (maskPrefix p0)).mp (by rw [hl]; rfl))

theorem treeSplit_fold_inv (t : ArmTree) (children : List PrefixM) :
    (sumSamples (children.foldl (fun acc c =>
        let c := maskPrefix c
        match lookupArm acc c with
        | some _ => acc
        | none => acc ++ [(c, newArmNode)]) t) = sumSamples t) ∧
    ((treeKeys t).Nodup → (treeKeys (children.foldl (fun acc c =>
        let c := maskPrefix c
        match lookupArm acc c with
        | some _ => acc
        | none => acc ++ [(c, newArmNode)]) t)).Nodup) := by
  induction children generalizing t with
  | nil => exact ⟨rfl, fun h => h⟩
  | cons c rest ih =>
    simp only [List.foldl_cons]
    cases hl : lookupArm t (maskPrefix c) with
    | some a =>
      simp only [hl]
      exact ih t
    | none =>
      simp only [hl]
      obtain ⟨ihs, ihn⟩ := ih (t ++ [(maskPrefix c, newArmNode)])
      constructor
      · rw [ihs]
        simp [sumSamples, newArmNode]
      · intro hnd
        apply ihn
        rw [show treeKeys (t ++ [(maskPrefix c, newArmNode)])
            = treeKeys t ++ [maskPrefix c] by simp [treeKeys]]
        rw [List.nodup_append]
        refine ⟨hnd, List.nodup_singleton _, ?_⟩
        intro q hq
        simp only [List.mem_singleton]
        intro hqe
        subst hqe
        have := (lookupArm_isSome_iff t (maskPrefix c)).mpr hq
        rw [hl] at this
        exact Bool.noConfusion this

theorem sumSamples_cons (x : PrefixM × ArmNode) (xs : ArmTree) :
    sumSamples (x :: xs) = x.2.samples + sumSamples xs := rfl

theorem treeKeys_cons (x : PrefixM × ArmNode) (xs : ArmTree) :
    treeKeys (x :: xs) = x.1 :: treeKeys xs := rfl

theorem mapSplit_sum (t : ArmTree) (parent : PrefixM) :
    sumSamples (t.map (fun e =>
      if e.1 = maskPrefix parent then (e.1, { e.2 with isSplit := true }) else e))
      = sumSamples t := by
  induction t with
  | nil => rfl
  | cons e rest ih =>
    rw [List.map_cons, sumSamples_cons, sumSamples_cons, ih]
    by_cases he : e.1 = maskPrefix parent
    · rw [if_pos he]
    · rw [if_neg he]

theorem mapSplit_keys (t : ArmTree) (parent : PrefixM) :
    treeKeys (t.map (fun e =>
      if e.1 = maskPrefix parent then (e.1, { e.2 with isSplit := true }) else e))
      = treeKeys t := by
  induction t with
  | nil => rfl
  | cons e rest ih =>
    rw [List.map_cons, treeKeys_cons, treeKeys_cons, ih]
    by_cases he : e.1 = maskPrefix parent
    · rw [if_pos he]
    · rw [if_neg he]

theorem treeSplit_sum (t : ArmTree) (parent : PrefixM) (children : List PrefixM) :
    sumSamples (treeSplit t parent children) = sumSamples t := by
  unfold treeSplit
  rw [mapSplit_sum]
  exact (treeSplit_fold_inv t children).1

theorem treeSplit_nodup {t : ArmTree} (h : (treeKeys t).Nodup)
    (parent : PrefixM) (children : List PrefixM) :
    (treeKeys (treeSplit t parent children)).Nodup := by
  unfold treeSplit
  rw [mapSplit_keys]
  exact (treeSplit_fold_inv t children).2 h

theorem newArmTree_inv (prefixes : List PrefixM) :
    sumSamples (newArmTree prefixes) = 0 ∧ (treeKeys (newArmTree prefixes)).Nodup := by
  unfold newArmTree
  suffices h : ∀ (t : ArmTree), sumSamples t = 0 → (treeKeys t).Nodup →
      (∀ e ∈ t, e.2.samples = 0) →
      sumSamples (prefixes.foldl (fun t p =>
        let p := maskPrefix p
        match lookupArm t p with
        | some _ => t
        | none => t ++ [(p, newArmNode)]) t) = 0 ∧
      (treeKeys (prefixes.foldl (fun t p =>
        let p := maskPrefix p
        match lookupArm t p with
        | some _ => t
        | none => t ++ [(p, newArmNode)]) t)).Nodup by
    exact h [] rfl List.nodup_nil (by intro e he; exact absurd he (List.not_mem_nil e))
  induction prefixes with
  | nil => intro t hs hn _; exact ⟨hs, hn⟩
  | cons p rest ih =>
    intro t hs hn hz
    simp only [List.foldl_cons]
    cases hl : lookupArm t (maskPrefix p) with
    | some a => simp only [hl]; exact ih t hs hn hz
    | none =>
      simp only [hl]
      apply ih
      · simp [sumSamples, newArmNode] at hs ⊢
        exact hs
      · rw [show treeKeys (t ++ [(maskPrefix p, newArmNode)])
            = treeKeys t ++ [maskPrefix p] by simp [treeKeys]]
        rw [List.nodup_append]
        refine ⟨hn, List.nodup_singleton _, ?_⟩
        intro q hq
        simp only [List.mem_singleton]
        intro hqe
        subst hqe
        have := (lookupArm_isSome_iff t (maskPrefix p)).mpr hq
        rw [hl] at this
        exact Bool.noConfusion this
      · intro e he
        rcases List.mem_append.mp he with he | he
        · exact hz e he
        · rw [List.mem_singleton.mp he]
          rfl

theorem treeUpdate_lookup_self (t : ArmTree) (p0 : PrefixM) (ok : Bool) (lat tm : ℚ) :
    lookupArm (treeUpdate t p0 ok lat tm) (maskPrefix p0)
      = some (armUpdate ((lookupArm t (maskPrefix p0)).getD newArmNode) ok lat tm) := by
  unfold treeUpdate
  cases hl : lookupArm t (maskPrefix p0) with
  | none =>
    simp only [hl, Option.getD_none]
    induction t with
    | nil => simp [lookupArm]
    | cons e rest ih =>
      unfold lookupArm at hl
      by_cases he : e.1 = maskPrefix p0
      · rw [if_pos he] at hl; exact Option.noConfusion hl
      · rw [if_neg he] at hl
        rw [List.cons_append]
        unfold lookupArm
        rw [if_neg he]
        exact ih hl
  | some a =>
    simp only [hl, Option.getD_some]
    induction t with
    | nil => exact Option.noConfusion hl
    | cons e rest ih =>
      unfold lookupArm at hl
      by_cases he : e.1 = maskPrefix p0
      · rw [if_pos he] at hl
        injection hl with hl
        subst hl
        rw [List.map_cons, if_pos he]
        unfold lookupArm
        rw [if_pos he]
      · rw [if_neg he] at hl
        rw [List.map_cons, if_neg he]
        unfold lookupArm
        rw [if_neg he]
        exact ih hl

theorem treeUpdate_lookup_other (t : ArmTree) (p0 q : PrefixM) (ok : Bool) (lat tm : ℚ)
    (hq : q ≠ maskPrefix p0) :
    lookupArm (treeUpdate t p0 ok lat tm) q = lookupArm t q := by
  unfold treeUpdate
  cases hl : lookupArm t (maskPrefix p0) with
  | none =>
    simp only [hl]
    induction t with
    | nil =>
      simp only [List.nil_append]
      unfold lookupArm
      rw [if_neg (fun h => hq h.symm)]
      rfl
    | cons e rest ih =>
      unfold lookupArm at hl
      by_cases he : e.1 = maskPrefix p0
      · rw [if_pos he] at hl; exact Option.noConfusion hl
      · rw [if_neg he] at hl
        rw [List.cons_append]
        unfold lookupArm
        by_cases heq : e.1 = q
        · rw [if_pos heq, if_pos heq]
        · rw [if_neg heq, if_neg heq]
          exact ih hl
  | some a =>
    simp only [hl]
    clear hl
    induction t with
    | nil => rfl
    | cons e rest ih =>
      rw [List.map_cons]
      by_cases he : e.1 = maskPrefix p0
      · rw [if_pos he]
        unfold lookupArm
        have heq : ¬(e.1 = q) := fun h => hq (h ▸ he)
        rw [if_neg heq, if_neg heq]
        exact ih
      · rw [if_neg he]
        unfold lookupArm
        by_cases heq : e.1 = q
        · rw [if_pos heq, if_pos heq]
        · rw [if_neg heq, if_neg heq]
          exact ih

theorem scheduleLoop_spec (tm : ℚ) (B : ℕ) :
    ∀ (evs : List SchedEvent) (t : ArmTree) (completed : ℕ),
      (treeKeys t).Nodup → completed ≤ B →
      sumSamples (scheduleLoop tm B t completed evs).1
          = sumSamples t + ((scheduleLoop tm B t completed evs).2 - completed) ∧
      (scheduleLoop tm B t completed evs).2 = min B (completed + resultCount evs) ∧
      (treeKeys (scheduleLoop tm B t completed evs).1).Nodup := by
  intro evs
  induction evs with
  | nil =>
    intro t c hnd hc
    have hz : scheduleLoop tm B t c [] = (t, c) := rfl
    rw [hz]
    dsimp only
    refine ⟨by omega, ?_, hnd⟩
    simp only [resultCount, List.countP_nil]
    omega
  | cons e rest ih =>
    intro t c hnd hc
    cases e with
    | result p ok lat =>
      have hstep : scheduleLoop tm B t c (SchedEvent.result p ok lat :: rest)
          = if c < B then scheduleLoop tm B (treeUpdate t p ok lat tm) (c + 1) rest
            else (t, c) := rfl
      have hrc : resultCount (SchedEvent.result p ok lat :: rest)
          = resultCount rest + 1 := by
        simp [resultCount]
      by_cases hcb : c < B
      · rw [hstep, if_pos hcb]
        obtain ⟨ih1, ih2, ih3⟩ := ih (treeUpdate t p ok lat tm) (c + 1)
          (treeUpdate_nodup hnd p ok lat tm) (by omega)
        have hsum := treeUpdate_sum hnd p ok lat tm
        refine ⟨?_, ?_, ih3⟩
        · rw [ih1, hsum]
          omega
        · rw [ih2, hrc]
          omega
      · rw [hstep, if_neg hcb]
        dsimp only
        refine ⟨by omega, ?_, hnd⟩
        rw [hrc]
        omega
    | split parent children =>
      have hstep : scheduleLoop tm B t c (SchedEvent.split parent children :: rest)
          = if c < B then scheduleLoop tm B (treeSplit t parent children) c rest
            else (t, c) := rfl
      have hrc : resultCount (SchedEvent.split parent children :: rest)
          = resultCount rest := by
        simp [resultCount]
      by_cases hcb : c < B
      · rw [hstep, if_pos hcb]
        obtain ⟨ih1, ih2, ih3⟩ := ih (treeSplit t parent children) c
          (treeSplit_nodup hnd parent children) hc
        have hsum := treeSplit_sum t parent children
        refine ⟨?_, ?_, ih3⟩
        · rw [ih1, hsum]
        · rw [ih2, hrc]
      · rw [hstep, if_neg hcb]
        dsimp only
        refine ⟨by omega, ?_, hnd⟩
        rw [hrc]
        omega

/-- **C1** — A run that completes its full budget normally processes exactly
`B` probe results (the event loop stops when `completed` reaches `B`), each
result performs exactly one arm update — the arm at the task's (masked)
prefix is updated once, every other arm is untouched — and afterwards the
sum of `samples` over all arms equals `B`; interleaved split passes create
only zero-sample arms and change no count. -/
theorem schedule_budget_sample_sum (tm : ℚ) (B : ℕ) (roots : List PrefixM)
    (evs : List SchedEvent) :
    (B ≤ resultCount evs →
      (scheduleLoop tm B (newArmTree roots) 0 evs).2 = B ∧
      sumSamples (scheduleLoop tm B (newArmTree roots) 0 evs).1 = B) ∧
    (∀ (t : ArmTree) (p0 : PrefixM) (ok : Bool) (lat : ℚ),
      (treeKeys t).Nodup →
      sumSamples (treeUpdate t p0 ok lat tm) = sumSamples t + 1 ∧
      lookupArm (treeUpdate t p0 ok lat tm) (maskPrefix p0)
        = some (armUpdate ((lookupArm t (maskPrefix p0)).getD newArmNode) ok lat tm) ∧
      (∀ q, q ≠ maskPrefix p0 →
        lookupArm (treeUpdate t p0 ok lat tm) q = lookupArm t q)) ∧
    (∀ (t : ArmTree) (parent : PrefixM) (children : List PrefixM),
      sumSamples (treeSplit t parent children) = sumSamples t) := by
  obtain ⟨hz, hnd⟩ := newArmTree_inv roots
  obtain ⟨h1, h2, _⟩ := scheduleLoop_spec tm B evs (newArmTree roots) 0 hnd (Nat.zero_le B)
  refine ⟨?_, ?_, fun t parent children => treeSplit_sum t parent children⟩
  · intro hB
    have hc : (scheduleLoop tm B (newArmTree roots) 0 evs).2 = B := by
      rw [h2]; omega
    exact ⟨hc, by rw [h1, hz, hc]; omega⟩
  · intro t p0 ok lat hndt
    exact ⟨treeUpdate_sum hndt p0 ok lat tm,
      treeUpdate_lookup_self t p0 ok lat tm,
      fun q hq => treeUpdate_lookup_other t p0 q ok lat tm hq⟩

/-! ### Heap verification for the top-N collector (C4)

Index facts about `lget`/`lswap`, permutation tracking for every heap
operation, the max-heap invariant (`Less(i,j) = score i > score j`, so the
root carries the largest score), and the correctness of `up`/`down`
transcribed from `container/heap`. -/


theorem lswap_length (l : List TopRes) (i j : ℕ) :
    (lswap l i j).length = l.length := by
  simp [lswap]

theorem lget_eq_getElem? (l : List TopRes) (i : ℕ) :
    lget l i = (l[i]?).getD default := List.getD_eq_getElem?_getD l i default

theorem lget_lswap_right (l : List TopRes) (i j : ℕ) (hj : j < l.length) :
    lget (lswap l i j) j = lget l i := by
  unfold lswap
  rw [lget_eq_getElem?]
  rw [List.getElem?_set_self' (l := l.set i (lget l j))]
  rw [List.getElem?_eq_getElem (by simpa using hj)]
  rfl

theorem lget_lswap_left (l : List TopRes) (i j : ℕ) (hi : i < l.length)
    (hj : j < l.length) : lget (lswap l i j) i = lget l j := by
  by_cases hij : i = j
  · subst hij
    rw [lget_lswap_right l i i hi]
  · unfold lswap
    rw [lget_eq_getElem?]
    rw [List.getElem?_set_ne (fun h => hij h.symm)]
    rw [List.getElem?_set_self']
    rw [List.getElem?_eq_getElem (by simpa using hi)]
    rfl

theorem lget_lswap_other (l : List TopRes) (i j k : ℕ) (hki : k ≠ i) (hkj : k ≠ j) :
    lget (lswap l i j) k = lget l k := by
  unfold lswap
  rw [lget_eq_getElem?, List.getElem?_set_ne (fun h => hkj h.symm),
    List.getElem?_set_ne (fun h => hki h.symm), ← lget_eq_getElem?]

/-- Swapping the displaced element into the removed position is a
permutation: `getD k d :: xs.set k x ~ x :: xs` for `k < xs.length`. -/
theorem getD_cons_set_perm (x : TopRes) :
    ∀ (xs : List TopRes) (k : ℕ), k < xs.length →
      (xs.getD k default :: xs.set k x).Perm (x :: xs) := by
  intro xs
  induction xs with
  | nil => intro k hk; simp at hk
  | cons y ys ih =>
    intro k hk
    cases k with
    | zero =>
      simp only [List.getD_cons_zero, List.set_cons_zero]
      exact List.Perm.swap x y ys
    | succ m =>
      simp only [List.getD_cons_succ, List.set_cons_succ]
      exact (List.Perm.swap y (ys.getD m default) (ys.set m x)).trans
        ((List.Perm.cons y (ih m (by simpa using hk))).trans
          (List.Perm.swap x y ys))

theorem lswap_perm :
    ∀ (l : List TopRes) (i j : ℕ), i < l.length → j < l.length →
      (lswap l i j).Perm l := by
  intro l
  induction l with
  | nil => intro i j hi _; simp at hi
  | cons x xs ih =>
    intro i j hi hj
    cases i with
    | zero =>
      cases j with
      | zero =>
        unfold lswap lget
        simp only [List.getD_cons_zero, List.set_cons_zero]
        exact List.Perm.refl _
      | succ m =>
        unfold lswap lget
        simp only [List.getD_cons_zero, List.getD_cons_succ, List.set_cons_zero,
          List.set_cons_succ]
        exact getD_cons_set_perm x xs m (by simpa using hj)
    | succ k =>
      cases j with
      | zero =>
        unfold lswap lget
        simp only [List.getD_cons_zero, List.getD_cons_succ, List.set_cons_zero,
          List.set_cons_succ]
        exact getD_cons_set_perm x xs k (by simpa using hi)
      | succ m =>
        unfold lswap lget
        simp only [List.getD_cons_succ, List.set_cons_succ]
        exact List.Perm.cons x (ih k m (by simpa using hi) (by simpa using hj))

theorem heapUp_perm : ∀ (j : ℕ) (l : List TopRes), j < l.length → (heapUp l j).Perm l := by
  intro j
  induction j using Nat.strong_induction_on with
  | _ j ihj =>
    intro l hj
    unfold heapUp
    dsimp only
    split_ifs with h1 h2
    · have hi : (j - 1) / 2 < j := by omega
      exact (ihj ((j - 1) / 2) hi (lswap l ((j - 1) / 2) j) (by
        rw [lswap_length]; omega)).trans
        (lswap_perm l ((j - 1) / 2) j (by omega) hj)
    · exact List.Perm.refl _
    · exact List.Perm.refl _

theorem heapUp_length (j : ℕ) (l : List TopRes) (hj : j < l.length) :
    (heapUp l j).length = l.length :=
  (heapUp_perm j l hj).length_eq

theorem heapDownAux_basic :
    ∀ (fuel : ℕ) (l : List TopRes) (i n : ℕ), n - i ≤ fuel → n ≤ l.length →
      (heapDownAux l i n).1.Perm l ∧
      (∀ k, n ≤ k → lget (heapDownAux l i n).1 k = lget l k) := by
  intro fuel
  induction fuel with
  | zero =>
    intro l i n hf hn
    have : ¬(2 * i + 1 < n) := by omega
    unfold heapDownAux
    rw [dif_neg this]
    exact ⟨List.Perm.refl _, fun k _ => rfl⟩
  | succ f ih =>
    intro l i n hf hn
    unfold heapDownAux
    dsimp only
    by_cases h1 : 2 * i + 1 < n
    · rw [dif_pos h1]
      have main : ∀ j, i < j → j < n →
          ((if (lget l j).scoreMS > (lget l i).scoreMS
            then heapDownAux (lswap l i j) j n else (l, i)).1.Perm l ∧
          (∀ k, n ≤ k → lget (if (lget l j).scoreMS > (lget l i).scoreMS
            then heapDownAux (lswap l i j) j n else (l, i)).1 k = lget l k)) := by
        intro j hij hjn
        split_ifs with hgt
        · have hrec := ih (lswap l i j) j n (by omega) (by rw [lswap_length]; exact hn)
          exact ⟨hrec.1.trans (lswap_perm l i j (by omega) (by omega)),
            fun k hk => by
              rw [hrec.2 k hk, lget_lswap_other l i j k (by omega) (by omega)]⟩
        · exact ⟨List.Perm.refl _, fun k _ => rfl⟩
      by_cases hc : 2 * i + 2 < n ∧
          (lget l (2 * i + 2)).scoreMS > (lget l (2 * i + 1)).scoreMS
      · rw [if_pos hc]
        exact main (2 * i + 2) (by omega) hc.1
      · rw [if_neg hc]
        exact main (2 * i + 1) (by omega) h1
    · rw [dif_neg h1]
      exact ⟨List.Perm.refl _, fun k _ => rfl⟩

theorem heapDownAux_perm (l : List TopRes) (i n : ℕ) (hn : n ≤ l.length) :
    (heapDownAux l i n).1.Perm l :=
  (heapDownAux_basic (n - i) l i n (le_refl _) hn).1

theorem heapDownAux_length (l : List TopRes) (i n : ℕ) (hn : n ≤ l.length) :
    (heapDownAux l i n).1.length = l.length :=
  (heapDownAux_perm l i n hn).length_eq

theorem heapDownAux_above (l : List TopRes) (i n : ℕ) (hn : n ≤ l.length)
    (k : ℕ) (hk : n ≤ k) : lget (heapDownAux l i n).1 k = lget l k :=
  (heapDownAux_basic (n - i) l i n (le_refl _) hn).2 k hk

theorem heapPush_perm (l : List TopRes) (x : TopRes) :
    (heapPush l x).Perm (l ++ [x]) := by
  unfold heapPush
  exact heapUp_perm l.length (l ++ [x]) (by simp)

theorem heapPush_length (l : List TopRes) (x : TopRes) :
    (heapPush l x).length = l.length + 1 := by
  rw [(heapPush_perm l x).length_eq]
  simp

theorem heapFix_perm (l : List TopRes) (i : ℕ) (hi : i < l.length) :
    (heapFix l i).Perm l := by
  unfold heapFix
  dsimp only
  split_ifs with h
  · exact heapDownAux_perm l i l.length (le_refl _)
  · exact (heapUp_perm i _ (by
      rw [heapDownAux_length l i l.length (le_refl _)]; exact hi)).trans
      (heapDownAux_perm l i l.length (le_refl _))

/-- Score at an index. -/
def scAt (l : List TopRes) (i : ℕ) : ℚ := (lget l i).scoreMS

/-- The `container/heap` invariant on the first `n` entries, for
`Less(i,j) = items[i].ScoreMS > items[j].ScoreMS`: every child's score is at
most its parent's, so the root carries the largest score ("worst kept"). -/
def HeapUpTo (l : List TopRes) (n : ℕ) : Prop :=
  ∀ k, 0 < k → k < n → scAt l k ≤ scAt l ((k - 1) / 2)

def HeapProp (l : List TopRes) : Prop := HeapUpTo l l.length

theorem heapUpTo_le_root (l : List TopRes) (n : ℕ) (h : HeapUpTo l n) :
    ∀ k, k < n → scAt l k ≤ scAt l 0 := by
  intro k
  induction k using Nat.strong_induction_on with
  | _ k ihk =>
    intro hk
    rcases Nat.eq_zero_or_pos k with rfl | hk0
    · exact le_refl _
    · exact (h k hk0 hk).trans (ihk ((k - 1) / 2) (by omega) (by omega))

theorem lget_append_lt (l : List TopRes) (x : TopRes) (k : ℕ) (hk : k < l.length) :
    lget (l ++ [x]) k = lget l k := by
  rw [lget_eq_getElem?, lget_eq_getElem?, List.getElem?_append_left hk]

theorem lget_append_self (l : List TopRes) (x : TopRes) :
    lget (l ++ [x]) l.length = x := by
  rw [lget_eq_getElem?, List.getElem?_append_right (le_refl _)]
  simp

theorem lget_take (l : List TopRes) (n k : ℕ) (hk : k < n) :
    lget (l.take n) k = lget l k := by
  rw [lget_eq_getElem?, lget_eq_getElem?, List.getElem?_take_of_lt hk]

theorem scAt_lswap_left (l : List TopRes) (i j : ℕ) (hi : i < l.length)
    (hj : j < l.length) : scAt (lswap l i j) i = scAt l j := by
  unfold scAt; rw [lget_lswap_left l i j hi hj]

theorem scAt_lswap_right (l : List TopRes) (i j : ℕ) (hj : j < l.length) :
    scAt (lswap l i j) j = scAt l i := by
  unfold scAt; rw [lget_lswap_right l i j hj]

theorem scAt_lswap_other (l : List TopRes) (i j k : ℕ) (hki : k ≠ i) (hkj : k ≠ j) :
    scAt (lswap l i j) k = scAt l k := by
  unfold scAt; rw [lget_lswap_other l i j k hki hkj]

/-- Correctness of `container/heap`'s `up`: if every parent-child edge holds
except possibly the one out of `j`, and `j`'s children are bounded by `j`'s
parent's value, then sifting `j` up restores the full heap invariant. -/
theorem heapUp_heap : ∀ (j : ℕ) (l : List TopRes), j < l.length →
    (∀ k, 0 < k → k < l.length → k ≠ j → scAt l k ≤ scAt l ((k - 1) / 2)) →
    (0 < j → ∀ c, (c = 2 * j + 1 ∨ c = 2 * j + 2) → c < l.length →
      scAt l c ≤ scAt l ((j - 1) / 2)) →
    HeapProp (heapUp l j) := by
  intro j
  induction j using Nat.strong_induction_on with
  | _ j ihj =>
    intro l hj pre1 pre2
    unfold heapUp
    dsimp only
    split_ifs with h1 h2
    · -- swap with the parent and continue
      have hilen : (j - 1) / 2 < l.length := by omega
      have hij : (j - 1) / 2 ≠ j := by omega
      have hLi := scAt_lswap_left l ((j - 1) / 2) j hilen hj
      have hLj := scAt_lswap_right l ((j - 1) / 2) j hj
      have h2' : scAt l ((j - 1) / 2) < scAt l j := h2
      apply ihj ((j - 1) / 2) (by omega)
      · rw [lswap_length]; exact hilen
      · -- edges except the one out of (j-1)/2
        intro k hk0 hklen hki
        rw [lswap_length] at hklen
        by_cases hkj : k = j
        · rw [hkj, hLj, hLi]
          exact le_of_lt h2'
        · have hk_val := scAt_lswap_other l ((j - 1) / 2) j k hki hkj
          rw [hk_val]
          by_cases hpki : (k - 1) / 2 = (j - 1) / 2
          · rw [hpki, hLi]
            exact (pre1 k hk0 hklen hkj).trans
              (by rw [hpki]; exact le_of_lt h2')
          · by_cases hpkj : (k - 1) / 2 = j
            · rw [hpkj, hLj]
              have hkch : k = 2 * j + 1 ∨ k = 2 * j + 2 := by omega
              exact pre2 h1 k hkch hklen
            · rw [scAt_lswap_other l ((j - 1) / 2) j ((k - 1) / 2) hpki hpkj]
              exact pre1 k hk0 hklen hkj
      · -- children of (j-1)/2 stay below its parent's value
        intro hi0 c hc hclen
        rw [lswap_length] at hclen
        have hpii : ((j - 1) / 2 - 1) / 2 ≠ (j - 1) / 2 := by omega
        have hpij : ((j - 1) / 2 - 1) / 2 ≠ j := by omega
        rw [scAt_lswap_other l ((j - 1) / 2) j (((j - 1) / 2 - 1) / 2) hpii hpij]
        have hedge_i : scAt l ((j - 1) / 2) ≤ scAt l (((j - 1) / 2 - 1) / 2) :=
          pre1 ((j - 1) / 2) hi0 hilen hij
        by_cases hcj : c = j
        · subst hcj
          rw [hLj]
          exact hedge_i
        · have hci : c ≠ (j - 1) / 2 := by omega
          rw [scAt_lswap_other l ((j - 1) / 2) j c hci hcj]
          have hcp : (c - 1) / 2 = (j - 1) / 2 := by omega
          exact ((pre1 c (by omega) hclen hcj).trans_eq (by rw [hcp])).trans hedge_i
    · -- the edge out of j already holds: the array is a heap
      intro k hk0 hklen
      by_cases hkj : k = j
      · subst hkj
        exact le_of_not_lt h2
      · exact pre1 k hk0 hklen hkj
    · -- j = 0: no edge out of the root
      intro k hk0 hklen
      exact pre1 k hk0 hklen (by omega)

/-- Correctness of `container/heap`'s `down` on `[0, n)`: starting from an
array whose edges all hold except possibly the two out of `i`'s children,
with `i`'s children additionally bounded by `i`'s parent's value, `down`
either does not move (returning the array unchanged, all edges except the
one into `i`'s parent holding — and that one too, since `i` beat its
children), or restores the full heap invariant on `[0, n)`. -/
theorem heapDownAux_heap :
    ∀ (fuel : ℕ) (l : List TopRes) (i n : ℕ),
      n - i ≤ fuel → n ≤ l.length → i < n →
      (∀ k, 0 < k → k < n → k ≠ i → k ≠ 2 * i + 1 → k ≠ 2 * i + 2 →
        scAt l k ≤ scAt l ((k - 1) / 2)) →
      (0 < i → ∀ c, (c = 2 * i + 1 ∨ c = 2 * i + 2) → c < n →
        scAt l c ≤ scAt l ((i - 1) / 2)) →
      i ≤ (heapDownAux l i n).2 ∧
      ((heapDownAux l i n).2 = i →
        (heapDownAux l i n).1 = l ∧
        (∀ k, 0 < k → k < n → k ≠ i → scAt l k ≤ scAt l ((k - 1) / 2))) ∧
      ((heapDownAux l i n).2 ≠ i → HeapUpTo (heapDownAux l i n).1 n) := by
  intro fuel
  induction fuel with
  | zero =>
    intro l i n hf hn hi pre1 pre2
    have h1 : ¬(2 * i + 1 < n) := by omega
    unfold heapDownAux
    rw [dif_neg h1]
    refine ⟨le_refl _, fun _ => ⟨rfl, ?_⟩, fun h => absurd rfl h⟩
    intro k hk0 hkn hki
    exact pre1 k hk0 hkn hki (by omega) (by omega)
  | succ f ih =>
    intro l i n hf hn hi pre1 pre2
    unfold heapDownAux
    dsimp only
    by_cases h1 : 2 * i + 1 < n
    · rw [dif_pos h1]
      have main : ∀ j, j < n → i < j → (j - 1) / 2 = i →
          (∀ c, (c = 2 * i + 1 ∨ c = 2 * i + 2) → c < n → scAt l c ≤ scAt l j) →
          (j = 2 * i + 1 ∨ j = 2 * i + 2) →
          i ≤ (if (lget l j).scoreMS > (lget l i).scoreMS
               then heapDownAux (lswap l i j) j n else (l, i)).2 ∧
          ((if (lget l j).scoreMS > (lget l i).scoreMS
            then heapDownAux (lswap l i j) j n else (l, i)).2 = i →
            (if (lget l j).scoreMS > (lget l i).scoreMS
             then heapDownAux (lswap l i j) j n else (l, i)).1 = l ∧
            (∀ k, 0 < k → k < n → k ≠ i → scAt l k ≤ scAt l ((k - 1) / 2))) ∧
          ((if (lget l j).scoreMS > (lget l i).scoreMS
            then heapDownAux (lswap l i j) j n else (l, i)).2 ≠ i →
            HeapUpTo (if (lget l j).scoreMS > (lget l i).scoreMS
              then heapDownAux (lswap l i j) j n else (l, i)).1 n) := by
        intro j hjn hij hparent hsel hjch
        have hjlen : j < l.length := by omega
        have hilen : i < l.length := by omega
        have hLi := scAt_lswap_left l i j hilen hjlen
        have hLj := scAt_lswap_right l i j hjlen
        split_ifs with hgt
        · have hgt' : scAt l i < scAt l j := hgt
          -- sub-preconditions on the swapped array
          have pre1' : ∀ k, 0 < k → k < n → k ≠ j → k ≠ 2 * j + 1 → k ≠ 2 * j + 2 →
              scAt (lswap l i j) k ≤ scAt (lswap l i j) ((k - 1) / 2) := by
            intro k hk0 hkn hkj hkc1 hkc2
            by_cases hki : k = i
            · subst hki
              have hi0 : 0 < k := hk0
              have hpar_ne1 : (k - 1) / 2 ≠ k := by omega
              have hpar_ne2 : (k - 1) / 2 ≠ j := by omega
              rw [scAt_lswap_left l k j hilen hjlen,
                scAt_lswap_other l k j ((k - 1) / 2) hpar_ne1 hpar_ne2]
              exact pre2 hk0 j (by omega) hjn
            · by_cases hkchild : k = 2 * i + 1 ∨ k = 2 * i + 2
              · -- the sibling of j
                have hpk : (k - 1) / 2 = i := by omega
                rw [scAt_lswap_other l i j k hki hkj, hpk,
                  scAt_lswap_left l i j hilen hjlen]
                exact hsel k hkchild hkn
              · push_neg at hkchild
                have hpki : (k - 1) / 2 ≠ i := by omega
                have hpkj : (k - 1) / 2 ≠ j := by omega
                rw [scAt_lswap_other l i j k hki hkj,
                  scAt_lswap_other l i j ((k - 1) / 2) hpki hpkj]
                exact pre1 k hk0 hkn hki hkchild.1 hkchild.2
          have pre2' : 0 < j → ∀ c, (c = 2 * j + 1 ∨ c = 2 * j + 2) → c < n →
              scAt (lswap l i j) c ≤ scAt (lswap l i j) ((j - 1) / 2) := by
            intro _ c hc hcn
            have hcne_i : c ≠ i := by omega
            have hcne_j : c ≠ j := by omega
            rw [scAt_lswap_other l i j c hcne_i hcne_j, hparent,
              scAt_lswap_left l i j hilen hjlen]
            have hcp : (c - 1) / 2 = j := by omega
            have := pre1 c (by omega) hcn (by omega) (by omega) (by omega)
            rw [hcp] at this
            exact this
          obtain ⟨sub1, sub2, sub3⟩ := ih (lswap l i j) j n (by omega)
            (by rw [lswap_length]; exact hn) hjn pre1' pre2'
          refine ⟨by omega, fun h => absurd h (by omega), fun _ => ?_⟩
          by_cases hmoved : (heapDownAux (lswap l i j) j n).2 = j
          · obtain ⟨heq, hedges⟩ := sub2 hmoved
            rw [heq]
            intro k hk0 hkn
            by_cases hkj : k = j
            · rw [hkj, hLj, hparent, hLi]
              exact le_of_lt hgt'
            · exact hedges k hk0 hkn hkj
          · exact sub3 hmoved
        · -- i beat its best child: nothing moves
          refine ⟨le_refl _, fun _ => ⟨rfl, ?_⟩, fun h => absurd rfl h⟩
          intro k hk0 hkn hki
          by_cases hkchild : k = 2 * i + 1 ∨ k = 2 * i + 2
          · have hpk : (k - 1) / 2 = i := by omega
            rw [hpk]
            exact (hsel k hkchild hkn).trans (le_of_not_lt hgt)
          · push_neg at hkchild
            exact pre1 k hk0 hkn hki hkchild.1 hkchild.2
      by_cases hc : 2 * i + 2 < n ∧
          (lget l (2 * i + 2)).scoreMS > (lget l (2 * i + 1)).scoreMS
      · rw [if_pos hc]
        refine main (2 * i + 2) hc.1 (by omega) (by omega) ?_ (by omega)
        intro c hcch hcn
        rcases hcch with rfl | rfl
        · exact le_of_lt hc.2
        · exact le_refl _
      · rw [if_neg hc]
        refine main (2 * i + 1) h1 (by omega) (by omega) ?_ (by omega)
        intro c hcch hcn
        rcases hcch with rfl | rfl
        · exact le_refl _
        · rcases Classical.em ((lget l (2 * i + 2)).scoreMS >
              (lget l (2 * i + 1)).scoreMS) with hgt2 | hgt2
          · exact absurd ⟨hcn, hgt2⟩ hc
          · exact le_of_not_lt hgt2
    · rw [dif_neg h1]
      refine ⟨le_refl _, fun _ => ⟨rfl, ?_⟩, fun h => absurd rfl h⟩
      intro k hk0 hkn hki
      exact pre1 k hk0 hkn hki (by omega) (by omega)

theorem ipIndex_some (l : List TopRes) (ip idx : ℕ) (h : ipIndex l ip = some idx) :
    idx < l.length ∧ (lget l idx).ip = ip := by
  unfold ipIndex at h
  rw [List.findIdx?_eq_some_iff_getElem] at h
  obtain ⟨hlt, hp, -⟩ := h
  refine ⟨hlt, ?_⟩
  rw [lget_eq_getElem?, List.getElem?_eq_getElem hlt]
  simpa using hp

theorem ipIndex_none (l : List TopRes) (ip : ℕ) (h : ipIndex l ip = none) :
    ∀ y ∈ l, y.ip ≠ ip := by
  unfold ipIndex at h
  rw [List.findIdx?_eq_none_iff] at h
  intro y hy
  simpa using h y hy

theorem lget_set_ne (l : List TopRes) (idx k : ℕ) (r : TopRes) (hk : k ≠ idx) :
    lget (l.set idx r) k = lget l k := by
  rw [lget_eq_getElem?, lget_eq_getElem?, List.getElem?_set_ne (fun h => hk h.symm)]

theorem lget_set_self (l : List TopRes) (idx : ℕ) (r : TopRes) (h : idx < l.length) :
    lget (l.set idx r) idx = r := by
  rw [lget_eq_getElem?, List.getElem?_set_self', List.getElem?_eq_getElem h]
  rfl

/-- Pushing onto a heap keeps the heap invariant. -/
theorem heapPush_heap (l : List TopRes) (x : TopRes) (h : HeapProp l) :
    HeapProp (heapPush l x) := by
  unfold heapPush
  apply heapUp_heap l.length (l ++ [x]) (by simp)
  · intro k hk0 hklen hkne
    have hk : k < l.length := by simp at hklen; omega
    have hp : (k - 1) / 2 < l.length := by omega
    unfold scAt
    rw [lget_append_lt l x k hk, lget_append_lt l x _ hp]
    exact h k hk0 hk
  · intro hl0 c hc hclen
    exfalso
    simp at hclen
    omega

/-- `heap.Fix` after overwriting one position of a heap restores the heap. -/
theorem heapFix_heap (items : List TopRes) (r : TopRes) (idx : ℕ)
    (hidx : idx < items.length) (h : HeapProp items) :
    HeapProp (heapFix (items.set idx r) idx) := by
  have hlen : (items.set idx r).length = items.length := by simp
  have pre1 : ∀ k, 0 < k → k < items.length → k ≠ idx → k ≠ 2 * idx + 1 →
      k ≠ 2 * idx + 2 → scAt (items.set idx r) k ≤ scAt (items.set idx r) ((k - 1) / 2) := by
    intro k hk0 hkn hki hkc1 hkc2
    have hpne : (k - 1) / 2 ≠ idx := by omega
    unfold scAt
    rw [lget_set_ne items idx k r hki, lget_set_ne items idx _ r hpne]
    exact h k hk0 hkn
  have pre2 : 0 < idx → ∀ c, (c = 2 * idx + 1 ∨ c = 2 * idx + 2) →
      c < items.length → scAt (items.set idx r) c ≤ scAt (items.set idx r) ((idx - 1) / 2) := by
    intro hidx0 c hc hcn
    have hcne : c ≠ idx := by omega
    have hpne : (idx - 1) / 2 ≠ idx := by omega
    unfold scAt
    rw [lget_set_ne items idx c r hcne, lget_set_ne items idx _ r hpne]
    have e1 : scAt items c ≤ scAt items idx := by
      have := h c (by omega) hcn
      rwa [show (c - 1) / 2 = idx by omega] at this
    exact e1.trans (h idx hidx0 hidx)
  obtain ⟨sub1, sub2, sub3⟩ := heapDownAux_heap (items.length - idx) (items.set idx r)
    idx items.length (by omega) (by omega) hidx
    (by rw [hlen] at *; exact pre1) (by rw [hlen] at *; exact pre2)
  unfold heapFix
  dsimp only
  rw [hlen]
  split_ifs with hmv
  · have hne : (heapDownAux (items.set idx r) idx items.length).2 ≠ idx := by omega
    have hh := sub3 hne
    unfold HeapProp
    rw [heapDownAux_length _ idx items.length (le_of_eq hlen.symm)]
    rw [hlen]
    exact hh
  · have heq : (heapDownAux (items.set idx r) idx items.length).2 = idx := by omega
    obtain ⟨hunch, hedges⟩ := sub2 heq
    rw [hunch]
    apply heapUp_heap idx (items.set idx r) (by omega)
    · intro k hk0 hklen hkne
      rw [hlen] at hklen
      exact hedges k hk0 hklen hkne
    · intro hidx0 c hc hclen
      rw [hlen] at hclen
      exact pre2 hidx0 c hc hclen

/-- `heap.Pop`: returns the root (by the heap invariant, a maximal-score
entry); the remainder is the rest of the heap and is still a heap. -/
theorem heapPopGo_spec (l : List TopRes) (hne : l ≠ []) (h : HeapProp l) :
    HeapProp (heapPopGo l).2 ∧
    ((heapPopGo l).1 :: (heapPopGo l).2).Perm l ∧
    (heapPopGo l).1 = lget l 0 ∧
    (heapPopGo l).2.length = l.length - 1 := by
  have hlen0 : 0 < l.length := List.length_pos.mpr hne
  have hswlen : (lswap l 0 (l.length - 1)).length = l.length := lswap_length l 0 _
  have hnlt : l.length - 1 < l.length := by omega
  have hl2len : (heapDown (lswap l 0 (l.length - 1)) 0 (l.length - 1)).length
      = l.length := by
    unfold heapDown
    rw [heapDownAux_length _ 0 (l.length - 1) (by omega), hswlen]
  have hl2perm : (heapDown (lswap l 0 (l.length - 1)) 0 (l.length - 1)).Perm l := by
    unfold heapDown
    exact (heapDownAux_perm _ 0 (l.length - 1) (by omega)).trans
      (lswap_perm l 0 (l.length - 1) hlen0 hnlt)
  have hpop1 : (heapPopGo l).1 = lget l 0 := by
    unfold heapPopGo heapDown
    dsimp only
    rw [heapDownAux_above _ 0 (l.length - 1) (by omega) (l.length - 1) (le_refl _)]
    exact lget_lswap_right l 0 (l.length - 1) hnlt
  have hup : HeapUpTo (heapDown (lswap l 0 (l.length - 1)) 0 (l.length - 1))
      (l.length - 1) := by
    by_cases hn0 : l.length - 1 = 0
    · intro k hk0 hkn
      omega
    · have pre1 : ∀ k, 0 < k → k < l.length - 1 → k ≠ 0 → k ≠ 1 → k ≠ 2 →
          scAt (lswap l 0 (l.length - 1)) k
            ≤ scAt (lswap l 0 (l.length - 1)) ((k - 1) / 2) := by
        intro k hk0 hkn _ _ _
        have hkne0 : k ≠ 0 := by omega
        have hknen : k ≠ l.length - 1 := by omega
        have hpne0 : (k - 1) / 2 ≠ 0 := by omega
        have hpnen : (k - 1) / 2 ≠ l.length - 1 := by omega
        rw [scAt_lswap_other l 0 _ k hkne0 hknen,
          scAt_lswap_other l 0 _ _ hpne0 hpnen]
        exact h k hk0 (by omega)
      obtain ⟨sub1, sub2, sub3⟩ := heapDownAux_heap (l.length - 1)
        (lswap l 0 (l.length - 1)) 0 (l.length - 1) (by omega) (by omega)
        (by omega) pre1 (fun h0 => absurd h0 (lt_irrefl 0))
      by_cases hmv : (heapDownAux (lswap l 0 (l.length - 1)) 0 (l.length - 1)).2 = 0
      · obtain ⟨hunch, hedges⟩ := sub2 hmv
        unfold heapDown
        rw [hunch]
        intro k hk0 hkn
        exact hedges k hk0 hkn (by omega)
      · exact sub3 hmv
  refine ⟨?_, ?_, hpop1, ?_⟩
  · -- the remainder keeps the heap property
    unfold heapPopGo
    dsimp only
    intro k hk0 hkn
    rw [List.length_take] at hkn
    have hkn2 : k < l.length - 1 := by
      rw [hl2len] at hkn
      omega
    unfold scAt
    rw [lget_take _ _ k hkn2, lget_take _ _ _ (by omega)]
    exact hup k hk0 hkn2
  · -- popped together with the remainder is a permutation of the heap
    unfold heapPopGo
    dsimp only
    have hdrop : (heapDown (lswap l 0 (l.length - 1)) 0 (l.length - 1)).drop
        (l.length - 1) = [lget (heapDown (lswap l 0 (l.length - 1)) 0 (l.length - 1))
          (l.length - 1)] := by
      rw [List.drop_eq_getElem_cons (by rw [hl2len]; omega)]
      rw [List.drop_eq_nil_of_le (by rw [hl2len]; omega)]
      congr 1
      rw [lget_eq_getElem?, List.getElem?_eq_getElem (by rw [hl2len]; omega)]
      rfl
    have hsplit := List.take_append_drop (l.length - 1)
      (heapDown (lswap l 0 (l.length - 1)) 0 (l.length - 1))
    rw [hdrop] at hsplit
    have h2 : ((heapDown (lswap l 0 (l.length - 1)) 0 (l.length - 1)).take (l.length - 1)
        ++ [lget (heapDown (lswap l 0 (l.length - 1)) 0 (l.length - 1)) (l.length - 1)]).Perm
        l := by
      rw [hsplit]
      exact hl2perm
    exact (List.perm_append_singleton _ _).symm.trans h2
  · unfold heapPopGo
    dsimp only
    rw [List.length_take, hl2len]
    omega

theorem lget_of_mem {l : List TopRes} {y : TopRes} (h : y ∈ l) :
    ∃ j, j < l.length ∧ lget l j = y := by
  rw [List.mem_iff_getElem] at h
  obtain ⟨i, hi, hy⟩ := h
  exact ⟨i, hi, by rw [lget_eq_getElem?, List.getElem?_eq_getElem hi]; exact hy⟩

theorem selMinIdx_lt : ∀ (l : List TopRes), l ≠ [] → selMinIdx l < l.length := by
  intro l
  match l with
  | [] => intro h; exact absurd rfl h
  | [x] => intro _; exact Nat.zero_lt_one
  | x :: y :: ys =>
    intro _
    have ih := selMinIdx_lt (y :: ys) (by simp)
    unfold selMinIdx
    dsimp only
    split_ifs <;> simp at ih ⊢ <;> omega

theorem selMinIdx_min : ∀ (l : List TopRes) (k : ℕ), k < l.length →
    (lget l (selMinIdx l)).scoreMS ≤ (lget l k).scoreMS := by
  intro l
  match l with
  | [] => intro k hk; simp at hk
  | [x] =>
    intro k hk
    have hk0 : k = 0 := by simpa using hk
    subst hk0
    exact le_refl _
  | x :: y :: ys =>
    intro k hk
    have ih := selMinIdx_min (y :: ys)
    unfold selMinIdx
    dsimp only
    split_ifs with hlt
    · show (lget (y :: ys) (selMinIdx (y :: ys))).scoreMS ≤ _
      cases k with
      | zero => exact le_of_lt hlt
      | succ j =>
        show _ ≤ (lget (y :: ys) j).scoreMS
        exact ih j (by simpa using hk)
    · show (lget (x :: y :: ys) 0).scoreMS ≤ _
      cases k with
      | zero => exact le_refl _
      | succ j =>
        show x.scoreMS ≤ (lget (y :: ys) j).scoreMS
        exact (le_of_not_lt hlt).trans (ih j (by simpa using hk))

theorem selSort_nil : selSort [] = [] := by
  rw [selSort]

theorem selSort_cons_eq (x : TopRes) (xs : List TopRes) :
    selSort (x :: xs) =
      lget (lswap (x :: xs) 0 (selMinIdx (x :: xs))) 0 ::
        selSort (lswap (x :: xs) 0 (selMinIdx (x :: xs))).tail := by
  rw [selSort]

theorem head_cons_tail (ys : List TopRes) (hne : ys ≠ []) :
    lget ys 0 :: ys.tail = ys := by
  cases ys with
  | nil => exact absurd rfl hne
  | cons a t => rfl

theorem selSort_perm : ∀ (fuel : ℕ) (l : List TopRes), l.length ≤ fuel →
    (selSort l).Perm l := by
  intro fuel
  induction fuel with
  | zero =>
    intro l hl
    have : l = [] := List.length_eq_zero.mp (by omega)
    subst this
    rw [selSort_nil]
  | succ f ih =>
    intro l hl
    match l with
    | [] => rw [selSort_nil]
    | x :: xs =>
      rw [selSort_cons_eq]
      have hklt : selMinIdx (x :: xs) < (x :: xs).length :=
        selMinIdx_lt (x :: xs) (by simp)
      have hyslen : (lswap (x :: xs) 0 (selMinIdx (x :: xs))).length
          = (x :: xs).length := lswap_length _ 0 _
      have hysne : lswap (x :: xs) 0 (selMinIdx (x :: xs)) ≠ [] := by
        intro hcon
        rw [hcon] at hyslen
        simp at hyslen
      have htail : (lswap (x :: xs) 0 (selMinIdx (x :: xs))).tail.length ≤ f := by
        rw [List.length_tail, hyslen]
        simp at hl ⊢
        omega
      have hperm1 := ih (lswap (x :: xs) 0 (selMinIdx (x :: xs))).tail htail
      have hperm2 : (lget (lswap (x :: xs) 0 (selMinIdx (x :: xs))) 0 ::
          (lswap (x :: xs) 0 (selMinIdx (x :: xs))).tail).Perm (x :: xs) := by
        rw [head_cons_tail _ hysne]
        exact lswap_perm (x :: xs) 0 _ (by simp) hklt
      exact (List.Perm.cons _ hperm1).trans hperm2

theorem selSort_sorted : ∀ (fuel : ℕ) (l : List TopRes), l.length ≤ fuel →
    (selSort l).Pairwise (fun a b => a.scoreMS ≤ b.scoreMS) := by
  intro fuel
  induction fuel with
  | zero =>
    intro l hl
    have : l = [] := List.length_eq_zero.mp (by omega)
    subst this
    rw [selSort_nil]
    exact List.Pairwise.nil
  | succ f ih =>
    intro l hl
    match l with
    | [] => rw [selSort_nil]; exact List.Pairwise.nil
    | x :: xs =>
      rw [selSort_cons_eq]
      have hklt : selMinIdx (x :: xs) < (x :: xs).length :=
        selMinIdx_lt (x :: xs) (by simp)
      have hyslen : (lswap (x :: xs) 0 (selMinIdx (x :: xs))).length
          = (x :: xs).length := lswap_length _ 0 _
      have hysne : lswap (x :: xs) 0 (selMinIdx (x :: xs)) ≠ [] := by
        intro hcon
        rw [hcon] at hyslen
        simp at hyslen
      have htail : (lswap (x :: xs) 0 (selMinIdx (x :: xs))).tail.length ≤ f := by
        rw [List.length_tail, hyslen]
        simp at hl ⊢
        omega
      refine List.Pairwise.cons ?_ (ih _ htail)
      intro y hy
      have hytail : y ∈ (lswap (x :: xs) 0 (selMinIdx (x :: xs))).tail :=
        (selSort_perm f _ htail).mem_iff.mp hy
      have hyys : y ∈ lswap (x :: xs) 0 (selMinIdx (x :: xs)) :=
        List.mem_of_mem_tail hytail
      have hyorig : y ∈ (x :: xs) :=
        (lswap_perm (x :: xs) 0 _ (by simp) hklt).mem_iff.mp hyys
      obtain ⟨j, hj, hjy⟩ := lget_of_mem hyorig
      rw [lget_lswap_left (x :: xs) 0 _ (by simp) hklt, ← hjy]
      exact selMinIdx_min (x :: xs) j hj

/-- The collector's reachable-state invariant: the slice is a max-heap on
score, IPs are pairwise distinct, and at most `n` entries are kept. -/
def CollInv (c : TopNCollector) : Prop :=
  HeapProp c.items ∧ (c.items.map (fun t => t.ip)).Nodup ∧
    (c.items.length : ℤ) ≤ max c.n 0

theorem set_eq_self_of_lget (l : List TopRes) (i : ℕ) (v : TopRes)
    (hi : i < l.length) (hv : lget l i = v) : l.set i v = l := by
  induction l generalizing i with
  | nil => simp at hi
  | cons x xs ih =>
    cases i with
    | zero =>
      rw [← hv]
      rfl
    | succ m =>
      rw [List.set_cons_succ]
      rw [ih m (by simpa using hi) (by rw [← hv]; rfl)]

theorem set_perm_cons_eraseIdx :
    ∀ (l : List TopRes) (idx : ℕ) (r : TopRes), idx < l.length →
      (l.set idx r).Perm (r :: l.eraseIdx idx) := by
  intro l
  induction l with
  | nil => intro idx r h; simp at h
  | cons x xs ih =>
    intro idx r h
    cases idx with
    | zero =>
      rw [List.set_cons_zero, List.eraseIdx_cons_zero]
    | succ m =>
      rw [List.set_cons_succ, List.eraseIdx_cons_succ]
      exact (List.Perm.cons x (ih m r (by simpa using h))).trans
        (List.Perm.swap r x (xs.eraseIdx m))

theorem consider_n (c : TopNCollector) (r : TopRes) : (consider c r).n = c.n := by
  unfold consider
  by_cases h0 : c.n ≤ 0
  · rw [if_pos h0]
  · rw [if_neg h0]
    cases h : ipIndex c.items r.ip with
    | some idx =>
      dsimp only
      by_cases hs : r.scoreMS < (lget c.items idx).scoreMS
      · rw [if_pos hs]
      · rw [if_neg hs]
    | none =>
      dsimp only
      by_cases hlt : (c.items.length : ℤ) < c.n
      · rw [if_pos hlt]
      · rw [if_neg hlt]
        by_cases hs : r.scoreMS < (lget c.items 0).scoreMS
        · rw [if_pos hs]
        · rw [if_neg hs]

theorem considerAll_n (N : ℤ) (rs : List TopRes) : (considerAll N rs).n = N := by
  unfold considerAll
  suffices h : ∀ (c : TopNCollector), (rs.foldl consider c).n = c.n from h _
  induction rs with
  | nil => intro c; rfl
  | cons r rest ih =>
    intro c
    rw [List.foldl_cons, ih, consider_n]

theorem set_eq_self_of_getElem {α : Type _} :
    ∀ (l : List α) (i : ℕ) (v : α) (h : i < l.length), l[i] = v → l.set i v = l := by
  intro l
  induction l with
  | nil => intro i v h; simp at h
  | cons x xs ih =>
    intro i v h hv
    cases i with
    | zero =>
      simp only [List.getElem_cons_zero] at hv
      subst hv
      rfl
    | succ m =>
      simp only [List.getElem_cons_succ] at hv
      rw [List.set_cons_succ, ih m v (by simpa using h) hv]

theorem consider_inv {c : TopNCollector} (h : CollInv c) (r : TopRes) :
    CollInv (consider c r) := by
  obtain ⟨hheap, hnodup, hlen⟩ := h
  unfold consider
  by_cases h0 : c.n ≤ 0
  · rw [if_pos h0]
    exact ⟨hheap, hnodup, hlen⟩
  · rw [if_neg h0]
    push_neg at h0
    cases hidx : ipIndex c.items r.ip with
    | some idx =>
      dsimp only
      obtain ⟨hidxlt, hidxip⟩ := ipIndex_some c.items r.ip idx hidx
      by_cases hs : r.scoreMS < (lget c.items idx).scoreMS
      · rw [if_pos hs]
        have hperm : (heapFix (c.items.set idx r) idx).Perm (c.items.set idx r) :=
          heapFix_perm _ idx (by simpa using hidxlt)
        refine ⟨heapFix_heap c.items r idx hidxlt hheap, ?_, ?_⟩
        · -- the replaced entry carries the same IP, so the IP list is unchanged
          have hmapset : (c.items.set idx r).map (fun t => t.ip) = c.items.map (fun t => t.ip) := by
            rw [List.map_set]
            apply set_eq_self_of_getElem _ idx r.ip (by simpa using hidxlt)
            rw [List.getElem_map]
            have hg : c.items[idx] = lget c.items idx := by
              rw [lget_eq_getElem?, List.getElem?_eq_getElem hidxlt]
              rfl
            rw [hg, hidxip]
          rw [List.Perm.nodup_iff (List.Perm.map _ hperm)]
          rw [hmapset]
          exact hnodup
        · have : (heapFix (c.items.set idx r) idx).length = c.items.length := by
            rw [hperm.length_eq]
            simp
          simpa [this] using hlen
      · rw [if_neg hs]
        exact ⟨hheap, hnodup, hlen⟩
    | none =>
      dsimp only
      have hipnot := ipIndex_none c.items r.ip hidx
      by_cases hlt : (c.items.length : ℤ) < c.n
      · rw [if_pos hlt]
        have hperm := heapPush_perm c.items r
        refine ⟨heapPush_heap c.items r hheap, ?_, ?_⟩
        · rw [List.Perm.nodup_iff (List.Perm.map _ hperm)]
          rw [List.map_append]
          rw [List.nodup_append]
          refine ⟨hnodup, List.nodup_singleton _, ?_⟩
          intro ip hip
          simp only [List.map_cons, List.map_nil, List.mem_singleton]
          intro hipe
          subst hipe
          rw [List.mem_map] at hip
          obtain ⟨y, hy, hyip⟩ := hip
          exact hipnot y hy hyip
        · rw [heapPush_length]
          rw [max_eq_left (le_of_lt h0)] at hlen ⊢
          push_cast
          omega
      · rw [if_neg hlt]
        by_cases hs : r.scoreMS < (lget c.items 0).scoreMS
        · rw [if_pos hs]
          have hne : c.items ≠ [] := by
            intro hcon
            rw [hcon] at hlt
            simp at hlt
            omega
          obtain ⟨hresth, hrestp, hpop0, hrestlen⟩ := heapPopGo_spec c.items hne hheap
          have hperm := heapPush_perm (heapPopGo c.items).2 r
          refine ⟨heapPush_heap _ r hresth, ?_, ?_⟩
          · rw [List.Perm.nodup_iff (List.Perm.map _ hperm)]
            rw [List.map_append]
            rw [List.nodup_append]
            have hmapperm : ((heapPopGo c.items).1.ip ::
                ((heapPopGo c.items).2.map (fun t => t.ip))).Perm
                (c.items.map (fun t => t.ip)) := by
              have := List.Perm.map (fun t => t.ip) hrestp
              simpa using this
            have hnodup2 : ((heapPopGo c.items).1.ip ::
                ((heapPopGo c.items).2.map (fun t => t.ip))).Nodup :=
              (List.Perm.nodup_iff hmapperm).mpr hnodup
            refine ⟨(List.nodup_cons.mp hnodup2).2, List.nodup_singleton _, ?_⟩
            intro ip hip
            simp only [List.map_cons, List.map_nil, List.mem_singleton]
            intro hipe
            subst hipe
            rw [List.mem_map] at hip
            obtain ⟨y, hy, hyip⟩ := hip
            have hymem : y ∈ c.items := hrestp.mem_iff.mp (List.mem_cons_of_mem _ hy)
            exact hipnot y hymem hyip
          · rw [heapPush_length, hrestlen]
            have hpos : 0 < c.items.length := List.length_pos.mpr hne
            rw [max_eq_left (le_of_lt h0)] at hlen ⊢
            omega
        · rw [if_neg hs]
          exact ⟨hheap, hnodup, hlen⟩

theorem considerAll_inv (N : ℤ) (rs : List TopRes) : CollInv (considerAll N rs) := by
  unfold considerAll
  suffices h : ∀ (c : TopNCollector), CollInv c → CollInv (rs.foldl consider c) by
    apply h
    refine ⟨?_, by simp [newTopNCollector], by simp [newTopNCollector]⟩
    intro k hk0 hkn
    simp [newTopNCollector] at hkn
  induction rs with
  | nil => intro c hc; exact hc
  | cons r rest ih =>
    intro c hc
    rw [List.foldl_cons]
    exact ih _ (consider_inv hc r)

theorem lget_mem (l : List TopRes) (k : ℕ) (hk : k < l.length) : lget l k ∈ l := by
  rw [lget_eq_getElem?, List.getElem?_eq_getElem hk]
  exact List.getElem_mem hk

/-- **C4** — For every capacity `N > 0` and every sequence of `Consider`
calls, `Snapshot()` is sorted ascending by `score_ms`, has length at most
`N`, and carries pairwise-distinct IPs; moreover at any reachable state
`Consider` (i) replaces an existing entry for the same IP exactly when the
new score is strictly lower, (ii) pushes when fewer than `N` entries are
held, and (iii) otherwise evicts the root — which the heap invariant makes
a worst (maximal-score) kept entry, whose IP disappears from the dedup
map — exactly when the new score is strictly below that worst score. -/
theorem topn_collector_spec (N : ℤ) (rs : List TopRes) (r : TopRes) (hN : 0 < N) :
    ((snapshot (considerAll N rs)).Pairwise (fun a b => a.scoreMS ≤ b.scoreMS) ∧
     ((snapshot (considerAll N rs)).length : ℤ) ≤ N ∧
     ((snapshot (considerAll N rs)).map (fun t => t.ip)).Nodup) ∧
    (∀ idx, ipIndex (considerAll N rs).items r.ip = some idx →
      (¬r.scoreMS < (lget (considerAll N rs).items idx).scoreMS →
        consider (considerAll N rs) r = considerAll N rs) ∧
      (r.scoreMS < (lget (considerAll N rs).items idx).scoreMS →
        (consider (considerAll N rs) r).items.Perm
          (r :: (considerAll N rs).items.eraseIdx idx))) ∧
    (ipIndex (considerAll N rs).items r.ip = none →
      (((considerAll N rs).items.length : ℤ) < N →
        (consider (considerAll N rs) r).items.Perm (r :: (considerAll N rs).items)) ∧
      (¬((considerAll N rs).items.length : ℤ) < N →
        (∀ y ∈ (considerAll N rs).items,
          y.scoreMS ≤ (lget (considerAll N rs).items 0).scoreMS) ∧
        (¬r.scoreMS < (lget (considerAll N rs).items 0).scoreMS →
          consider (considerAll N rs) r = considerAll N rs) ∧
        (r.scoreMS < (lget (considerAll N rs).items 0).scoreMS →
          (consider (considerAll N rs) r).items.Perm
            (r :: (heapPopGo (considerAll N rs).items).2) ∧
          ((heapPopGo (considerAll N rs).items).1 ::
            (heapPopGo (considerAll N rs).items).2).Perm (considerAll N rs).items ∧
          (heapPopGo (considerAll N rs).items).1 = lget (considerAll N rs).items 0 ∧
          (lget (considerAll N rs).items 0).ip ∉
            (consider (considerAll N rs) r).items.map (fun t => t.ip)))) := by
  obtain ⟨hheap, hnodup, hlen⟩ := considerAll_inv N rs
  have hn := considerAll_n N rs
  have h0 : ¬((considerAll N rs).n ≤ 0) := by rw [hn]; omega
  have hsnperm : (snapshot (considerAll N rs)).Perm (considerAll N rs).items :=
    selSort_perm (considerAll N rs).items.length _ (le_refl _)
  refine ⟨⟨selSort_sorted (considerAll N rs).items.length _ (le_refl _), ?_, ?_⟩, ?_, ?_⟩
  · rw [hsnperm.length_eq]
    rw [hn, max_eq_left (le_of_lt hN)] at hlen
    exact hlen
  · rw [List.Perm.nodup_iff (List.Perm.map _ hsnperm)]
    exact hnodup
  · -- same-IP branch
    intro idx hidx
    obtain ⟨hidxlt, hidxip⟩ := ipIndex_some _ r.ip idx hidx
    constructor
    · intro hs
      unfold consider
      rw [if_neg h0, hidx]
      dsimp only
      rw [if_neg hs]
    · intro hs
      have hstep : (consider (considerAll N rs) r).items
          = heapFix ((considerAll N rs).items.set idx r) idx := by
        unfold consider
        rw [if_neg h0, hidx]
        dsimp only
        rw [if_pos hs]
      rw [hstep]
      exact (heapFix_perm _ idx (by simpa using hidxlt)).trans
        (set_perm_cons_eraseIdx _ idx r hidxlt)
  · -- new-IP branch
    intro hidx
    have hipnot := ipIndex_none _ r.ip hidx
    constructor
    · intro hlt
      have hstep : (consider (considerAll N rs) r).items
          = heapPush (considerAll N rs).items r := by
        unfold consider
        rw [if_neg h0, hidx]
        dsimp only
        rw [hn, if_pos hlt]
      rw [hstep]
      exact (heapPush_perm _ r).trans (List.perm_append_singleton _ _)
    · intro hge
      have hne : (considerAll N rs).items ≠ [] := by
        intro hcon
        rw [hcon] at hge
        simp at hge
        omega
      have hroot : ∀ y ∈ (considerAll N rs).items,
          y.scoreMS ≤ (lget (considerAll N rs).items 0).scoreMS := by
        intro y hy
        obtain ⟨j, hj, hjy⟩ := lget_of_mem hy
        rw [← hjy]
        exact heapUpTo_le_root _ _ hheap j hj
      refine ⟨hroot, ?_, ?_⟩
      · intro hs
        unfold consider
        rw [if_neg h0, hidx]
        dsimp only
        rw [hn, if_neg hge, if_neg hs]
      · intro hs
        obtain ⟨hresth, hrestp, hpop0, hrestlen⟩ :=
          heapPopGo_spec (considerAll N rs).items hne hheap
        have hstep : (consider (considerAll N rs) r).items
            = heapPush (heapPopGo (considerAll N rs).items).2 r := by
          unfold consider
          rw [if_neg h0, hidx]
          dsimp only
          rw [hn, if_neg hge, if_pos hs]
        have hpushp : (consider (considerAll N rs) r).items.Perm
            (r :: (heapPopGo (considerAll N rs).items).2) := by
          rw [hstep]
          exact (heapPush_perm _ r).trans (List.perm_append_singleton _ _)
        refine ⟨hpushp, hrestp, hpop0, ?_⟩
        -- the evicted entry's IP is gone from the collector
        intro hmem
        have hmem2 : (lget (considerAll N rs).items 0).ip ∈
            (r :: (heapPopGo (considerAll N rs).items).2).map (fun t => t.ip) :=
          ((List.Perm.map _ hpushp).mem_iff).mp hmem
        simp only [List.map_cons, List.mem_cons] at hmem2
        rcases hmem2 with heq | hmem3
        · -- the new entry cannot reuse the evicted IP: r.ip is fresh
          have hworstmem : lget (considerAll N rs).items 0 ∈ (considerAll N rs).items :=
            lget_mem _ 0 (List.length_pos.mpr hne)
          exact hipnot _ hworstmem heq
        · -- nor can the remainder: IPs are pairwise distinct
          have hmapperm : ((heapPopGo (considerAll N rs).items).1.ip ::
              ((heapPopGo (considerAll N rs).items).2.map (fun t => t.ip))).Perm
              ((considerAll N rs).items.map (fun t => t.ip)) := by
            have := List.Perm.map (fun t => t.ip) hrestp
            simpa using this
          have hnodup2 := (List.Perm.nodup_iff hmapperm).mpr hnodup
          rw [List.nodup_cons] at hnodup2
          rw [hpop0] at hnodup2
          exact hnodup2.1 hmem3

theorem topn_collector_spec_witness :
    (0 : ℤ) < 2 ∧
    (snapshot (considerAll 2 [])).Pairwise (fun a b => a.scoreMS ≤ b.scoreMS) ∧
    ((snapshot (considerAll 2 [])).length : ℤ) ≤ 2 ∧
    ((snapshot (considerAll 2 [])).map (fun t => t.ip)).Nodup :=
  ⟨by norm_num,
   (topn_collector_spec 2 [] ⟨0, ⟨true, [], 0⟩, true, 0⟩ (by norm_num)).1⟩
